import Mathlib

/-!
Verification development for the event-response simulation repository.

The repository ships a browser frontend (React + three.js) under
`frontend/src`; the four coordination subsystems described by the design
document (Scheduler, AlertManager, RoutingGraph, AnalyticsEngine) live in a
backend that is not part of the checked-in sources, so those components are
modelled here directly from the design document and each such definition is
marked `Modelled from the spec:` in its doc comment.

Numbers are embedded as rationals (`ℚ`): the frontend works with finite
JavaScript numbers and every constant appearing in the verified code paths is
decimal, so rational arithmetic is a faithful shallow embedding; NaN or
infinite inputs are represented by `Option` (`none` = not a finite number),
matching the explicit `typeof`/`isNaN`/`isFinite` guards in the source.
-/

namespace Creative

/-! ## Frontend: View3D coordinate handling (frontend/src/components/View3D.tsx) -/

/-- Latitude lower bound used by `normalizeCoords` (View3D.tsx line 98). -/
def latMin : ℚ := 36

/-- Latitude upper bound used by `normalizeCoords` (View3D.tsx line 99). -/
def latMax : ℚ := 36.2

/-- Longitude lower bound used by `normalizeCoords` (View3D.tsx line 100). -/
def lonMin : ℚ := -115.3

/-- Longitude upper bound used by `normalizeCoords` (View3D.tsx line 101). -/
def lonMax : ℚ := -115.1

/-- `normalizeCoords` from View3D.tsx (lines 97-111): maps `lon` linearly over
`[lonMin, lonMax]` to `x` and `lat` linearly over `[latMin, latMax]` to `z`,
then clamps each to `[0, 1]` via `Math.min(Math.max(v, 0), 1)`. -/
def normalizeCoords (lat lon : ℚ) : ℚ × ℚ :=
  (min (max ((lon - lonMin) / (lonMax - lonMin)) 0) 1,
   min (max ((lat - latMin) / (latMax - latMin)) 0) 1)

/-- `parseLocation` from View3D.tsx (lines 114-121): `null` (or an array whose
length is not 2) yields `null`; if the absolute value of the first component
exceeds 100 the pair is returned swapped, otherwise unchanged. -/
def parseLocation (location : Option (List ℚ)) : Option (List ℚ) :=
  match location with
  | some [a, b] => if 100 < |a| then some [b, a] else some [a, b]
  | _ => none

/-- Claim C8: for every pair of rational coordinates, `normalizeCoords` returns
a pair `(x, z)` with `0 ≤ x ≤ 1` and `0 ≤ z ≤ 1`, where `x` is the linear image
of `lon` over `[-115.3, -115.1]` clamped into `[0, 1]` and `z` is the linear
image of `lat` over `[36.0, 36.2]` clamped into `[0, 1]`. -/
theorem C8_normalizeCoords_spec (lat lon : ℚ) :
    0 ≤ (normalizeCoords lat lon).1 ∧ (normalizeCoords lat lon).1 ≤ 1 ∧
    0 ≤ (normalizeCoords lat lon).2 ∧ (normalizeCoords lat lon).2 ≤ 1 ∧
    (normalizeCoords lat lon).1
      = min (max ((lon - ↑(-115.3 : ℚ)) / ((-115.1 : ℚ) - (-115.3 : ℚ))) 0) 1 ∧
    (normalizeCoords lat lon).2
      = min (max ((lat - (36 : ℚ)) / ((36.2 : ℚ) - (36 : ℚ))) 0) 1 := by
  refine ⟨?_, ?_, ?_, ?_, rfl, rfl⟩ <;>
    simp [normalizeCoords, le_max_iff, min_le_iff, le_min_iff]

/-- Claim C9, counterexample: `parseLocation (some [200, 300])` is not `null`
and returns the swapped pair `[300, 200]`, whose first component has absolute
value greater than 100 — refuting the claim that the first component of every
non-null result has absolute value at most 100. -/
theorem C9_counterexample :
    parseLocation (some [200, 300]) = some [300, 200] ∧
    ¬ |(300 : ℚ)| ≤ 100 := by
  constructor
  · norm_num [parseLocation]
  · norm_num

/-- Claim C9, amended: `parseLocation` returns `null` exactly when its argument
is `null` or its length is not 2; otherwise, if the absolute value of the first
component exceeds 100 it returns the pair with components swapped, and
otherwise returns the pair unchanged.  (The swap does not bound the swapped-in
first component: it is at most 100 in absolute value only when the original
second component is.) -/
theorem C9_parseLocation_spec (loc : Option (List ℚ)) :
    (parseLocation loc = none ↔ loc = none ∨ ∃ l, loc = some l ∧ l.length ≠ 2) ∧
    (∀ a b, loc = some [a, b] → 100 < |a| → parseLocation loc = some [b, a]) ∧
    (∀ a b, loc = some [a, b] → |a| ≤ 100 → parseLocation loc = some [a, b]) := by
  refine ⟨?_, ?_, ?_⟩
  · constructor
    · intro hnone
      match loc with
      | none => exact Or.inl rfl
      | some [] => exact Or.inr ⟨[], rfl, by simp⟩
      | some [a] => exact Or.inr ⟨[a], rfl, by simp⟩
      | some (a :: b :: c :: l) => exact Or.inr ⟨a :: b :: c :: l, rfl, by simp⟩
      | some [a, b] =>
        exfalso
        by_cases h : 100 < |a| <;> simp [parseLocation, h] at hnone
    · rintro (rfl | ⟨l, rfl, hl⟩)
      · rfl
      · match l, hl with
        | [], _ => rfl
        | [a], _ => rfl
        | a :: b :: c :: t, _ => rfl
        | [a, b], hl => simp at hl
  · rintro a b rfl hab
    simp [parseLocation, hab]
  · rintro a b rfl hab
    simp [parseLocation, not_lt.mpr hab]

/-- Claim C9 amended, witness: instantiating the amended specification at the
concrete input `[200, 3]` (first component out of range, second in range). -/
theorem C9_parseLocation_spec_witness :
    parseLocation (some [200, 3]) = some [3, 200] :=
  (C9_parseLocation_spec (some [200, 3])).2.1 200 3 rfl (by norm_num)

/-! ## Frontend: MetricsPanel defaults and App.tsx agent sanitization -/

/-- The metrics object of a `SimulationState` as consumed by `MetricsPanel`
(part_003). Each field is `none` when the corresponding JSON field is absent
or not a finite number (the source guards with `typeof x === 'number'`). -/
structure Metrics where
  safety_score : Option ℚ
  avg_response_time : Option ℚ
  containment_rate : Option ℚ
  medical_events_count : Option ℚ
  incidents_resolved : Option ℚ
deriving DecidableEq

/-- The empty metrics object, used by `MetricsPanel` when `state.metrics` is
absent (`state.metrics ?? ({} as any)`, part_003 line 34). -/
def emptyMetrics : Metrics := ⟨none, none, none, none, none⟩

/-- The safety score rendered by `MetricsPanel` (part_003 lines 34-39):
`typeof metrics.safety_score === 'number' ? metrics.safety_score : 0`. -/
def displayedSafetyScore (metrics : Option Metrics) : ℚ :=
  ((metrics.getD emptyMetrics).safety_score).getD 0

/-- An agent as received over the websocket by `App.tsx`; `location` is `none`
when absent or falsy, and each coordinate is `none` when it is not a finite
number. -/
structure RawAgent where
  rid : ℕ
  location : Option (Option ℚ × Option ℚ)
deriving DecidableEq

/-- `sanitizeAgent` from App.tsx (lines 304-316): drops the agent when its
location is missing or either coordinate is not a finite number, and otherwise
clamps the latitude into `[36.0, 36.2]` and the longitude into
`[-115.3, -115.1]` (`Math.max(36.0, Math.min(36.2, lat))` and
`Math.max(-115.3, Math.min(-115.1, lon))`). -/
def sanitizeAgent (agent : RawAgent) : Option RawAgent :=
  match agent.location with
  | none => none
  | some (latq, lonq) =>
    match latq, lonq with
    | some lat, some lon =>
      some { agent with
              location := some (some (max latMin (min latMax lat)),
                                some (max lonMin (min lonMax lon))) }
    | _, _ => none

/-- Claim C1, counterexample: the presentation boundary silently substitutes
default data.  A state whose metrics lack `safety_score` renders the score `0`,
indistinguishable from a true score of `0`; and `sanitizeAgent` maps an agent
at the out-of-range latitude `50` to a clamped agent at latitude `36.2` instead
of rejecting it or surfacing an error. -/
theorem C1_counterexample :
    displayedSafetyScore (some ⟨none, some 1, some 1, some 1, some 1⟩) = 0 ∧
    displayedSafetyScore (some ⟨some 0, some 1, some 1, some 1, some 1⟩) = 0 ∧
    sanitizeAgent ⟨7, some (some 50, some (-115.2))⟩
      = some ⟨7, some (some 36.2, some (-115.2))⟩ := by
  refine ⟨rfl, rfl, ?_⟩
  have h1 : max latMin (min latMax (50 : ℚ)) = 36.2 := by
    norm_num [latMin, latMax]
  have h2 : max lonMin (min lonMax (-115.2 : ℚ)) = -115.2 := by
    norm_num [lonMin, lonMax]
  simp [sanitizeAgent, h1, h2]

/-- Claim C1, amended: at the presentation boundary the program does substitute
defaults for missing or out-of-range data rather than surfacing an error:
`MetricsPanel` renders `0` for a missing (or non-numeric) `safety_score` and
when the whole metrics object is absent, and `sanitizeAgent` silently clamps
finite out-of-range coordinates into latitude `[36.0, 36.2]` and longitude
`[-115.3, -115.1]`, dropping an agent only when its location is missing or a
coordinate is not a finite number. -/
theorem C1_presentation_defaults :
    (∀ m : Metrics, m.safety_score = none → displayedSafetyScore (some m) = 0) ∧
    displayedSafetyScore none = 0 ∧
    (∀ (a : RawAgent) (lat lon : ℚ), a.location = some (some lat, some lon) →
      sanitizeAgent a = some { a with
        location := some (some (max latMin (min latMax lat)),
                          some (max lonMin (min lonMax lon))) }) ∧
    (∀ a : RawAgent, a.location = none → sanitizeAgent a = none) ∧
    (∀ (a : RawAgent) (lonq : Option ℚ), a.location = some (none, lonq) →
      sanitizeAgent a = none) ∧
    (∀ (a : RawAgent) (latq : Option ℚ), a.location = some (latq, none) →
      sanitizeAgent a = none) := by
  refine ⟨?_, rfl, ?_, ?_, ?_, ?_⟩
  · intro m hm
    simp [displayedSafetyScore, hm]
  · intro a lat lon hloc
    simp [sanitizeAgent, hloc]
  · intro a hloc
    simp [sanitizeAgent, hloc]
  · intro a lonq hloc
    simp [sanitizeAgent, hloc]
  · intro a latq hloc
    cases latq <;> simp [sanitizeAgent, hloc]

/-- Claim C1 amended, witness: the amended specification evaluated at an agent
with an in-range finite location and at a metrics object missing its score. -/
theorem C1_presentation_defaults_witness :
    displayedSafetyScore (some ⟨none, none, none, none, none⟩) = 0 ∧
    sanitizeAgent ⟨3, none⟩ = none :=
  ⟨C1_presentation_defaults.1 ⟨none, none, none, none, none⟩ rfl,
   C1_presentation_defaults.2.2.2.1 ⟨3, none⟩ rfl⟩

/-! ## Frontend: View3D per-update scene reconciliation (lines 651-808) -/

/-- An agent as seen by the View3D agent-update effect: an id, a type tag
(`0` stands for `'athlete'`, which gets a trail), and a raw location. -/
structure V3Agent where
  aid : ℕ
  atype : ℕ
  location : Option (List ℚ)
deriving DecidableEq

/-- `getNormalizedPos` from View3D.tsx (lines 124-127): parse the location and
normalize it, `null` when parsing fails. -/
def getNormalizedPos (loc : Option (List ℚ)) : Option (ℚ × ℚ) :=
  match parseLocation loc with
  | some [a, b] => some (normalizeCoords a b)
  | _ => none

/-- An agent passes the guards of the View3D update loop (lines 651-686) when
its location is present and parses to a normalizable position.  The final
NaN/Infinity re-check of the source is unreachable in the rational embedding
(the inputs were already required to be finite numbers). -/
def agentRendered (a : V3Agent) : Bool :=
  a.location.isSome && (getNormalizedPos a.location).isSome

/-- The three.js scene bookkeeping of View3D: the ids owning an agent mesh
(`agentsRef`) and the ids owning a trail line (`trailsRef`). -/
structure SceneState where
  meshes : Finset ℕ
  trails : Finset ℕ
deriving DecidableEq

/-- The create-or-update pass of the View3D agent effect (lines 651-788): fold
over the state's agents; each agent passing the location guards is added to
`seen`, gets a mesh if it does not have one, and — when it is an athlete — a
trail is created together with the mesh. Returns the scene and the `seen` set. -/
def processAgents (agents : List V3Agent) (st : SceneState) (seen : Finset ℕ) :
    SceneState × Finset ℕ :=
  match agents with
  | [] => (st, seen)
  | a :: rest =>
    if agentRendered a then
      let st' :=
        if a.aid ∈ st.meshes then st
        else { meshes := insert a.aid st.meshes,
               trails := if a.atype = 0 then insert a.aid st.trails else st.trails }
      processAgents rest st' (insert a.aid seen)
    else processAgents rest st seen

/-- The removal pass of the View3D agent effect (lines 789-808): every mesh
whose id was not seen in the new state is removed from the scene, and its
trail (trails only exist for ids holding a mesh) is removed with it. -/
def removeStale (st : SceneState) (seen : Finset ℕ) : SceneState :=
  { meshes := st.meshes.filter (· ∈ seen),
    trails := st.trails.filter (fun i => i ∈ seen ∨ i ∉ st.meshes) }

/-- One processed state update of View3D: create/update pass then removal. -/
def viewStep (agents : List V3Agent) (st : SceneState) : SceneState :=
  let (st', seen) := processAgents agents st ∅
  removeStale st' seen

/-- The ids of the agents of a state that pass the rendering guards. -/
def renderedIds (agents : List V3Agent) : Finset ℕ :=
  ((agents.filter agentRendered).map V3Agent.aid).toFinset

theorem renderedIds_cons_pos {a : V3Agent} (agents : List V3Agent)
    (h : agentRendered a) :
    renderedIds (a :: agents) = insert a.aid (renderedIds agents) := by
  simp [renderedIds, List.filter_cons, h]

theorem renderedIds_cons_neg {a : V3Agent} (agents : List V3Agent)
    (h : ¬ agentRendered a) :
    renderedIds (a :: agents) = renderedIds agents := by
  simp [renderedIds, List.filter_cons, h]

theorem processAgents_spec (agents : List V3Agent) (st : SceneState)
    (seen : Finset ℕ) :
    (processAgents agents st seen).2 = seen ∪ renderedIds agents ∧
    (processAgents agents st seen).1.meshes = st.meshes ∪ renderedIds agents := by
  induction agents generalizing st seen with
  | nil => simp [processAgents, renderedIds]
  | cons a rest ih =>
    by_cases h : agentRendered a
    · rw [renderedIds_cons_pos rest h]
      simp only [processAgents, h, if_pos]
      by_cases hm : a.aid ∈ st.meshes
      · rw [if_pos hm]
        obtain ⟨h1, h2⟩ := ih st (insert a.aid seen)
        refine ⟨h1.trans ?_, h2.trans ?_⟩
        · rw [Finset.insert_union, Finset.union_insert]
        · rw [Finset.union_insert, Finset.insert_eq_self.mpr (by simp [hm])]
      · rw [if_neg hm]
        obtain ⟨h1, h2⟩ :=
          ih { meshes := insert a.aid st.meshes,
               trails := if a.atype = 0 then insert a.aid st.trails else st.trails }
             (insert a.aid seen)
        refine ⟨h1.trans ?_, h2.trans ?_⟩
        · rw [Finset.insert_union, Finset.union_insert]
        · rw [Finset.insert_union, Finset.union_insert]
    · rw [renderedIds_cons_neg rest h]
      simp only [processAgents, h, if_neg, Bool.false_eq_true, not_false_iff]
      exact ih st seen

/-- Claim C10: after each processed state update, the set of agent ids holding
a rendered mesh equals exactly the set of agent ids of the new state that have
a valid, normalizable location; and every previously rendered id absent from
that set loses both its mesh and its trail. -/
theorem C10_viewStep_sync (agents : List V3Agent) (st : SceneState) :
    (viewStep agents st).meshes = renderedIds agents ∧
    ∀ i ∈ st.meshes, i ∉ renderedIds agents →
      i ∉ (viewStep agents st).meshes ∧ i ∉ (viewStep agents st).trails := by
  obtain ⟨hseen, hmesh⟩ := processAgents_spec agents st ∅
  have hstep : viewStep agents st
      = removeStale (processAgents agents st ∅).1 (processAgents agents st ∅).2 := rfl
  constructor
  · rw [hstep]
    simp only [removeStale, hseen, hmesh, Finset.empty_union]
    ext i
    simp only [Finset.mem_filter, Finset.mem_union]
    tauto
  · intro i hi hni
    rw [hstep]
    simp only [removeStale, hseen, hmesh, Finset.empty_union, Finset.mem_filter,
      Finset.mem_union]
    constructor
    · tauto
    · intro hcon
      exact hcon.2.elim hni (fun hno => hno (Or.inl hi))

/-- Claim C10, witness: a concrete update with one valid agent (id 5) and a
stale mesh (id 9) — id 9 loses both its mesh and its trail. -/
theorem C10_viewStep_sync_witness :
    (9 : ℕ) ∈ SceneState.meshes ⟨{9}, {9}⟩ ∧
    (9 : ℕ) ∉ renderedIds [⟨5, 0, some [36.1, -115.2]⟩] ∧
    (9 : ℕ) ∉ (viewStep [⟨5, 0, some [36.1, -115.2]⟩] ⟨{9}, {9}⟩).meshes ∧
    (9 : ℕ) ∉ (viewStep [⟨5, 0, some [36.1, -115.2]⟩] ⟨{9}, {9}⟩).trails := by
  have h9 : (9 : ℕ) ∈ SceneState.meshes ⟨{9}, {9}⟩ := by decide
  have habs : ¬ (100 : ℚ) < |(36.1 : ℚ)| := by
    rw [abs_of_nonneg (by norm_num)]
    norm_num
  have hn : (9 : ℕ) ∉ renderedIds [⟨5, 0, some [36.1, -115.2]⟩] := by
    simp [renderedIds, agentRendered, getNormalizedPos, parseLocation, habs]
  obtain ⟨hm, ht⟩ :=
    (C10_viewStep_sync [⟨5, 0, some [36.1, -115.2]⟩] ⟨{9}, {9}⟩).2 9 h9 hn
  exact ⟨h9, hn, hm, ht⟩

/-! ## Scheduler (backend component, absent from the checked-in sources) -/

/-- Modelled from the spec: a `ScheduleEntry` holds a nominal time, a location
id, an enumerated event kind, a `flexible` flag and the `conflict` flag set by
`apply_delays` on fixed entries.  Times and delay magnitudes are natural
numbers (durations are nonnegative). -/
structure ScheduleEntry where
  time : ℕ
  location : ℕ
  kind : ℕ
  flexible : Bool
  conflict : Bool
deriving DecidableEq

/-- Modelled from the spec: the per-entry effect of `apply_delays` given the
triggering entry's nominal time `trigger` and the summed delay magnitude
`total` — a flexible downstream entry (nominal time ≥ `trigger`) has `total`
added to its time, a fixed downstream entry keeps its time and gets its
conflict flag set, and upstream entries are untouched (downstream-shift
respects causality). -/
def shiftEntry (trigger total : ℕ) (e : ScheduleEntry) : ScheduleEntry :=
  if trigger ≤ e.time then
    if e.flexible then { e with time := e.time + total }
    else { e with conflict := true }
  else e

/-- Modelled from the spec: `apply_delays` — for each flexible downstream
`ScheduleEntry`, add the summed delay magnitude to its nominal time; for fixed
downstream entries, do not shift time but set the `conflict` flag.  The
`Scheduler` component itself is absent from the checked-in sources. -/
def apply_delays (entries : List ScheduleEntry) (trigger : ℕ) (delays : List ℕ) :
    List ScheduleEntry :=
  entries.map (shiftEntry trigger delays.sum)

/-- Claim C2, counterexample: `apply_delays` does not preserve the relative
ordering of entries.  On the time-ordered itinerary with a flexible entry at
time 9 followed by a fixed entry at time 10, applying a delay of magnitude 100
triggered at time 5 shifts the flexible entry to time 109, past the fixed
entry, which stays at time 10 — the relative ordering is inverted. -/
theorem C2_counterexample :
    apply_delays [⟨9, 0, 0, true, false⟩, ⟨10, 0, 0, false, false⟩] 5 [100]
      = [⟨109, 0, 0, true, false⟩, ⟨10, 0, 0, false, true⟩] ∧
    (9 : ℕ) ≤ 10 ∧ ¬ (109 : ℕ) ≤ 10 := by
  refine ⟨?_, by norm_num, by norm_num⟩
  rfl

/-- Claim C2, amended: for every stored schedule and every sequence of delays,
`apply_delays` never decreases any `ScheduleEntry`'s nominal time; entries with
`flexible = false` keep their nominal time unchanged and only have their
conflict flag set (when downstream); each flexible downstream entry has the
summed delay magnitude added to its nominal time; upstream entries are
untouched; and the relative ordering is preserved among entries of equal
flexibility (a shifted flexible entry may overtake a fixed downstream one). -/
theorem C2_apply_delays_spec (entries : List ScheduleEntry) (trigger : ℕ)
    (delays : List ℕ) :
    List.Forall₂ (fun e e' =>
        e.time ≤ e'.time ∧
        (e.flexible = false → e'.time = e.time ∧ e'.flexible = e.flexible ∧
          e'.location = e.location ∧ e'.kind = e.kind) ∧
        (e.flexible = true → e'.conflict = e.conflict) ∧
        (e.flexible = true → trigger ≤ e.time → e'.time = e.time + delays.sum) ∧
        (e.flexible = false → trigger ≤ e.time → e'.conflict = true) ∧
        (e.time < trigger → e' = e))
      entries (apply_delays entries trigger delays) ∧
    ∀ e₁ e₂ : ScheduleEntry, e₁.flexible = e₂.flexible → e₁.time ≤ e₂.time →
      (shiftEntry trigger delays.sum e₁).time ≤ (shiftEntry trigger delays.sum e₂).time := by
  constructor
  · rw [apply_delays, List.forall₂_map_right_iff, List.forall₂_same]
    intro e _
    by_cases hdown : trigger ≤ e.time
    · cases hflex : e.flexible
      · simp [shiftEntry, hdown, hflex, not_lt.mpr hdown]
      · simp [shiftEntry, hdown, hflex, not_lt.mpr hdown]
    · simp [shiftEntry, hdown, lt_of_not_le hdown]
  · intro e₁ e₂ hflex htime
    by_cases h1 : trigger ≤ e₁.time
    · have h2 : trigger ≤ e₂.time := h1.trans htime
      cases hf : e₁.flexible
      · simp [shiftEntry, h1, h2, hflex ▸ hf, hf, htime]
      · simp [shiftEntry, h1, h2, hflex ▸ hf, hf]
        omega
    · by_cases h2 : trigger ≤ e₂.time
      · cases hf : e₂.flexible
        · simp [shiftEntry, h1, h2, hflex ▸ hf, hf, htime]
        · simp [shiftEntry, h1, h2, hflex ▸ hf, hf]
          omega
      · simp [shiftEntry, h1, h2, htime]

/-- Claim C2 amended, witness: the amended specification evaluated on a
two-entry itinerary (flexible at time 6, flexible at time 7) with a delay of
magnitude 100 triggered at time 5 — the relative ordering is preserved. -/
theorem C2_apply_delays_spec_witness :
    (shiftEntry 5 ([100].sum) ⟨6, 0, 0, true, false⟩).time
      ≤ (shiftEntry 5 ([100].sum) ⟨7, 0, 0, true, false⟩).time :=
  (C2_apply_delays_spec [⟨6, 0, 0, true, false⟩, ⟨7, 0, 0, true, false⟩] 5 [100]).2
    ⟨6, 0, 0, true, false⟩ ⟨7, 0, 0, true, false⟩ rfl (by norm_num)

/-! ## AlertManager (backend component, absent from the checked-in sources) -/

/-- Modelled from the spec: alert status, moving only along
opened → assigned → resolved. -/
inductive AlertStatus where
  | opened
  | assigned
  | resolved
deriving DecidableEq

/-- Modelled from the spec: an `Alert` — caller-supplied unique id, enumerated
category, severity tier, mutable current priority score, creation time,
assigned unit ids and status.  The open metadata mapping is omitted: no
claim mentions it. -/
structure Alert where
  id : ℕ
  category : ℕ
  severity : ℕ
  score : ℚ
  created : ℕ
  units : List ℕ
  status : AlertStatus
deriving DecidableEq

/-- The AlertManager's owned collection of alerts. -/
abbrev AlertStore := List Alert

/-- Modelled from the spec: the error taxonomy of the AlertManager. -/
inductive AMError where
  | NotFoundError
  | InvalidStateError
  | DuplicateAlertError
deriving DecidableEq

/-- Modelled from the spec: `register_alert` fails with `DuplicateAlertError`
when the id is already present in the store (a resolved id never reappears;
an explicit reopen is a new alert with a fresh id), and otherwise stores a new
alert with the computed initial score and status `opened`. -/
def register_alert (store : AlertStore) (i cat sev : ℕ) (score : ℚ) (now : ℕ) :
    Except AMError AlertStore :=
  if store.any (fun a => a.id == i) then .error .DuplicateAlertError
  else .ok (store ++ [⟨i, cat, sev, score, now, [], .opened⟩])

/-- Modelled from the spec: `assign_unit` moves an open or assigned alert to
`assigned`, recording the unit; an unknown id or a resolved alert fails with
`InvalidStateError` (status transitions per the invariant). -/
def assign_unit (store : AlertStore) (i unit : ℕ) : Except AMError AlertStore :=
  match store.find? (fun a => a.id == i) with
  | none => .error .InvalidStateError
  | some a =>
    if a.status = .resolved then .error .InvalidStateError
    else .ok (store.map fun b =>
      if b.id = i then { b with status := .assigned, units := unit :: b.units } else b)

/-- Modelled from the spec: `resolve_alert` moves an open or assigned alert to
`resolved`; an unknown id or an already-resolved alert fails with
`InvalidStateError`. -/
def resolve_alert (store : AlertStore) (i : ℕ) : Except AMError AlertStore :=
  match store.find? (fun a => a.id == i) with
  | none => .error .InvalidStateError
  | some a =>
    if a.status = .resolved then .error .InvalidStateError
    else .ok (store.map fun b =>
      if b.id = i then { b with status := .resolved } else b)

/-- Modelled from the spec: `update_all_alerts` re-scores every open or
assigned alert using the current context (abstracted as a re-scoring
function); resolved alerts are not touched. -/
def update_all_alerts (store : AlertStore) (rescore : Alert → ℚ) : AlertStore :=
  store.map fun a => if a.status = .resolved then a else { a with score := rescore a }

/-- Keep the better of an optional incumbent and a candidate: strictly higher
score wins, ties by strictly earlier creation time win, otherwise the
incumbent is kept (stable). -/
def pickBetter (best : Option Alert) (a : Alert) : Option Alert :=
  match best with
  | none => some a
  | some b =>
    if b.score < a.score ∨ (a.score = b.score ∧ a.created < b.created) then some a
    else some b

/-- Modelled from the spec: `get_highest_priority_alert` returns the single
open alert with the maximum current score, ties broken by earlier creation
time, and `none` when no open alerts exist. -/
def get_highest_priority_alert (store : AlertStore) : Option Alert :=
  (store.filter (fun a => a.status == .opened)).foldl pickBetter none

/-- Modelled from the spec: `get_alerts_by_category` — the non-resolved alerts
of a category, ordered by descending score, stable under ties by creation
time. -/
def get_alerts_by_category (store : AlertStore) (cat : ℕ) : List Alert :=
  List.insertionSort
    (fun a b => b.score < a.score ∨ (a.score = b.score ∧ a.created ≤ b.created))
    (store.filter (fun a => a.category == cat && !(a.status == .resolved)))

/-- The driver-visible operations of the AlertManager. Per the propagation
policy of the spec, a failing operation is logged and skipped: the store is
left unchanged. -/
inductive AMOp where
  | register (i cat sev : ℕ) (score : ℚ) (now : ℕ)
  | assign (i unit : ℕ)
  | resolve (i : ℕ)
  | update (rescore : Alert → ℚ)

/-- Apply one AlertManager operation, keeping the store unchanged when the
operation fails (the driver logs and skips the offending operation). -/
def applyOp (store : AlertStore) (op : AMOp) : AlertStore :=
  match op with
  | .register i cat sev score now =>
    match register_alert store i cat sev score now with
    | .ok s' => s'
    | .error _ => store
  | .assign i u =>
    match assign_unit store i u with
    | .ok s' => s'
    | .error _ => store
  | .resolve i =>
    match resolve_alert store i with
    | .ok s' => s'
    | .error _ => store
  | .update f => update_all_alerts store f

/-- Run a sequence of AlertManager operations. -/
def runOps (store : AlertStore) (ops : List AMOp) : AlertStore :=
  ops.foldl applyOp store

/-- Alert `a` is at least as urgent as alert `b`: its score is at least `b`'s,
and on a score tie its creation time is at most `b`'s (earlier wins). -/
def Dominates (a b : Alert) : Prop :=
  b.score ≤ a.score ∧ (b.score = a.score → a.created ≤ b.created)

theorem Dominates.refl (a : Alert) : Dominates a a :=
  ⟨le_refl _, fun _ => le_refl _⟩

theorem dominates_trans {a r b : Alert} (h1 : Dominates a r) (h2 : Dominates r b) :
    Dominates a b := by
  obtain ⟨hbr, hbr'⟩ := h2
  obtain ⟨hra, hra'⟩ := h1
  refine ⟨hbr.trans hra, fun heq => ?_⟩
  have h1eq : r.score = a.score := le_antisymm hra (by rw [← heq]; exact hbr)
  have h2eq : b.score = r.score := heq.trans h1eq.symm
  exact (hra' h1eq).trans (hbr' h2eq)

theorem pickBetter_spec (best : Option Alert) (c r : Alert)
    (h : pickBetter best c = some r) :
    (best = some r ∨ r = c) ∧ Dominates r c ∧ ∀ b, best = some b → Dominates r b := by
  match best with
  | none =>
    have hrc : r = c := by
      have hcr : some c = some r := by simpa [pickBetter] using h
      exact (Option.some.inj hcr).symm
    subst hrc
    exact ⟨Or.inr rfl, Dominates.refl r, fun b hb => by cases hb⟩
  | some b =>
    by_cases hcond : b.score < c.score ∨ (c.score = b.score ∧ c.created < b.created)
    · have hrc : r = c := by
        have hcr : some c = some r := by simpa [pickBetter, hcond] using h
        exact (Option.some.inj hcr).symm
      subst hrc
      refine ⟨Or.inr rfl, Dominates.refl r, fun b' hb' => ?_⟩
      obtain rfl : b = b' := Option.some.inj hb'
      rcases hcond with hlt | ⟨heq, hlt⟩
      · refine ⟨hlt.le, fun heq2 => absurd hlt ?_⟩
        rw [heq2]
        exact lt_irrefl _
      · exact ⟨heq.ge, fun _ => hlt.le⟩
    · have hrb : r = b := by
        have hbr : some b = some r := by simpa [pickBetter, hcond] using h
        exact (Option.some.inj hbr).symm
      subst hrb
      push_neg at hcond
      refine ⟨Or.inl rfl, ⟨hcond.1, hcond.2⟩, fun b' hb' => ?_⟩
      obtain rfl : r = b' := Option.some.inj hb'
      exact Dominates.refl r

theorem foldl_pickBetter_some (l : List Alert) (best : Option Alert) (a : Alert)
    (h : l.foldl pickBetter best = some a) :
    (best = some a ∨ a ∈ l) ∧
    (∀ b, best = some b → Dominates a b) ∧
    (∀ b ∈ l, Dominates a b) := by
  induction l generalizing best with
  | nil =>
    rw [List.foldl_nil] at h
    refine ⟨Or.inl h, fun b hb => ?_, fun b hb => absurd hb (List.not_mem_nil b)⟩
    rw [h] at hb
    obtain rfl : a = b := Option.some.inj hb
    exact Dominates.refl a
  | cons c rest ih =>
    rw [List.foldl_cons] at h
    obtain ⟨hmem, hbest, hrest⟩ := ih (pickBetter best c) h
    have hne : pickBetter best c ≠ none := by
      match best with
      | none => simp [pickBetter]
      | some b =>
        by_cases hcond : b.score < c.score ∨ (c.score = b.score ∧ c.created < b.created) <;>
          simp [pickBetter, hcond]
    obtain ⟨r, hr⟩ := Option.ne_none_iff_exists'.mp hne
    obtain ⟨hrmem, hrc, hrb⟩ := pickBetter_spec best c r hr
    have hdom_r : Dominates a r := hbest r hr
    constructor
    · rcases hmem with hm | hm
      · rw [hr] at hm
        obtain rfl : r = a := by injection hm
        rcases hrmem with h' | h'
        · exact Or.inl h'
        · exact Or.inr (h' ▸ List.mem_cons_self c rest)
      · exact Or.inr (List.mem_cons_of_mem c hm)
    constructor
    · intro b hb
      exact dominates_trans hdom_r (hrb b hb)
    · intro b hb
      rcases List.mem_cons.mp hb with rfl | hb'
      · exact dominates_trans hdom_r hrc
      · exact hrest b hb'

theorem foldl_pickBetter_none (l : List Alert) (best : Option Alert)
    (h : l.foldl pickBetter best = none) : best = none ∧ l = [] := by
  induction l generalizing best with
  | nil => exact ⟨h, rfl⟩
  | cons c rest ih =>
    rw [List.foldl_cons] at h
    obtain ⟨hb, -⟩ := ih (pickBetter best c) h
    exfalso
    match best with
    | none => simp [pickBetter] at hb
    | some b =>
      by_cases hcond : b.score < c.score ∨ (c.score = b.score ∧ c.created < b.created) <;>
        simp [pickBetter, hcond] at hb

/-- The id `i` is present in the store and every alert carrying it is
resolved — the state `resolve_alert i` establishes and later operations
preserve. -/
def IdResolved (i : ℕ) (store : AlertStore) : Prop :=
  (∃ a ∈ store, a.id = i) ∧ ∀ a ∈ store, a.id = i → a.status = .resolved

theorem resolve_ok_idResolved {store : AlertStore} {i : ℕ} {store' : AlertStore}
    (h : resolve_alert store i = .ok store') : IdResolved i store' := by
  unfold resolve_alert at h
  split at h
  · cases h
  · rename_i a hfind
    split at h
    · cases h
    · rename_i hres
      obtain rfl : (store.map fun b =>
          if b.id = i then { b with status := .resolved } else b) = store' :=
        Except.ok.inj h
      have hai : a.id = i := by
        have hpred := List.find?_some hfind
        simpa using hpred
      constructor
      · refine ⟨{ a with status := .resolved }, ?_, hai⟩
        exact List.mem_map.mpr ⟨a, List.mem_of_find?_eq_some hfind, by rw [if_pos hai]⟩
      · intro b' hb' hbi
        obtain ⟨b, hb, rfl⟩ := List.mem_map.mp hb'
        by_cases hbid : b.id = i
        · rw [if_pos hbid]
        · rw [if_neg hbid] at hbi ⊢
          exact absurd hbi hbid

theorem register_alert_ok {store : AlertStore} {j cat sev : ℕ} {sc : ℚ} {now : ℕ}
    {s' : AlertStore} (h : register_alert store j cat sev sc now = .ok s') :
    (∀ a ∈ store, a.id ≠ j) ∧ s' = store ++ [Alert.mk j cat sev sc now [] .opened] := by
  unfold register_alert at h
  split at h
  · cases h
  · rename_i hdup
    refine ⟨fun a ha hai => hdup (List.any_eq_true.mpr ⟨a, ha, by simp [hai]⟩), ?_⟩
    exact (Except.ok.inj h).symm

theorem assign_unit_ok {store : AlertStore} {j u : ℕ} {s' : AlertStore}
    (h : assign_unit store j u = .ok s') :
    ∃ a, store.find? (fun b => b.id == j) = some a ∧ a.status ≠ .resolved ∧
      s' = store.map fun b =>
        if b.id = j then { b with status := .assigned, units := u :: b.units } else b := by
  unfold assign_unit at h
  split at h
  · cases h
  · rename_i a hfind
    split at h
    · cases h
    · rename_i hres
      exact ⟨a, hfind, hres, (Except.ok.inj h).symm⟩

theorem resolve_alert_ok {store : AlertStore} {j : ℕ} {s' : AlertStore}
    (h : resolve_alert store j = .ok s') :
    ∃ a, store.find? (fun b => b.id == j) = some a ∧ a.status ≠ .resolved ∧
      s' = store.map fun b =>
        if b.id = j then { b with status := .resolved } else b := by
  unfold resolve_alert at h
  split at h
  · cases h
  · rename_i a hfind
    split at h
    · cases h
    · rename_i hres
      exact ⟨a, hfind, hres, (Except.ok.inj h).symm⟩

theorem applyOp_idResolved {i : ℕ} {store : AlertStore} (op : AMOp)
    (h : IdResolved i store) : IdResolved i (applyOp store op) := by
  obtain ⟨⟨w, hw, hwi⟩, hall⟩ := h
  cases op with
  | register j cat sev sc now =>
    simp only [applyOp]
    cases hreg : register_alert store j cat sev sc now with
    | error e => exact ⟨⟨w, hw, hwi⟩, hall⟩
    | ok s' =>
      obtain ⟨hfree, rfl⟩ := register_alert_ok hreg
      constructor
      · exact ⟨w, List.mem_append_left _ hw, hwi⟩
      · intro a ha hai
        rcases List.mem_append.mp ha with ha' | ha'
        · exact hall a ha' hai
        · have hnew : a = Alert.mk j cat sev sc now [] .opened :=
            List.mem_singleton.mp ha'
          rw [hnew] at hai
          exact absurd (hwi.trans hai.symm) (hfree w hw)
  | assign j u =>
    simp only [applyOp]
    cases hau : assign_unit store j u with
    | error e => exact ⟨⟨w, hw, hwi⟩, hall⟩
    | ok s' =>
      obtain ⟨a, hfind, hres, rfl⟩ := assign_unit_ok hau
      have hji : j ≠ i := by
        intro hji
        have hai : a.id = i := by
          have hpred := List.find?_some hfind
          simpa [hji] using hpred
        exact hres (hall a (List.mem_of_find?_eq_some hfind) hai)
      constructor
      · refine ⟨w, List.mem_map.mpr ⟨w, hw, ?_⟩, hwi⟩
        rw [if_neg (by rw [hwi]; exact fun hc => hji hc.symm)]
      · intro b' hb' hbi
        obtain ⟨b, hb, rfl⟩ := List.mem_map.mp hb'
        by_cases hbid : b.id = j
        · rw [if_pos hbid] at hbi ⊢
          exact absurd (hbid.symm.trans (show b.id = i from hbi)) hji
        · rw [if_neg hbid] at hbi ⊢
          exact hall b hb hbi
  | resolve j =>
    simp only [applyOp]
    cases hra : resolve_alert store j with
    | error e => exact ⟨⟨w, hw, hwi⟩, hall⟩
    | ok s' =>
      obtain ⟨a, hfind, hres, rfl⟩ := resolve_alert_ok hra
      constructor
      · refine ⟨if w.id = j then { w with status := .resolved } else w,
          List.mem_map.mpr ⟨w, hw, rfl⟩, ?_⟩
        by_cases hwj : w.id = j
        · rw [if_pos hwj]
          exact hwi
        · rw [if_neg hwj]
          exact hwi
      · intro b' hb' hbi
        obtain ⟨b, hb, rfl⟩ := List.mem_map.mp hb'
        by_cases hbid : b.id = j
        · rw [if_pos hbid]
        · rw [if_neg hbid] at hbi ⊢
          exact hall b hb hbi
  | update f =>
    simp only [applyOp]
    unfold update_all_alerts
    constructor
    · refine ⟨w, List.mem_map.mpr ⟨w, hw, ?_⟩, hwi⟩
      rw [if_pos (hall w hw hwi)]
    · intro b' hb' hbi
      obtain ⟨b, hb, rfl⟩ := List.mem_map.mp hb'
      by_cases hbres : b.status = .resolved
      · rw [if_pos hbres]
        exact hbres
      · rw [if_neg hbres] at hbi ⊢
        exact absurd (hall b hb hbi) hbres

theorem runOps_idResolved {i : ℕ} {store : AlertStore} (ops : List AMOp)
    (h : IdResolved i store) : IdResolved i (runOps store ops) := by
  induction ops generalizing store with
  | nil => exact h
  | cons op rest ih => exact ih (applyOp_idResolved op h)

/-- Claim C4: `get_highest_priority_alert` returns an open alert of the store
whose score is at least every other open alert's score, with score ties broken
by earlier creation time (`Dominates`), and returns `none` exactly when no
open alerts exist; moreover, once `resolve_alert i` succeeds, the id `i` never
again appears in the result of `get_highest_priority_alert` or in category
listings, whatever operations run afterwards. -/
theorem C4_highest_priority :
    (∀ (store : AlertStore) (a : Alert), get_highest_priority_alert store = some a →
      a ∈ store ∧ a.status = .opened ∧
      ∀ b ∈ store, b.status = .opened → Dominates a b) ∧
    (∀ store : AlertStore, get_highest_priority_alert store = none ↔
      ∀ a ∈ store, a.status ≠ .opened) ∧
    (∀ (store : AlertStore) (i : ℕ) (store' : AlertStore),
      resolve_alert store i = .ok store' → ∀ ops : List AMOp,
      (∀ a, get_highest_priority_alert (runOps store' ops) = some a → a.id ≠ i) ∧
      (∀ cat a, a ∈ get_alerts_by_category (runOps store' ops) cat → a.id ≠ i)) := by
  have hsome : ∀ (store : AlertStore) (a : Alert),
      get_highest_priority_alert store = some a →
      a ∈ store ∧ a.status = .opened ∧
      ∀ b ∈ store, b.status = .opened → Dominates a b := by
    intro store a h
    unfold get_highest_priority_alert at h
    obtain ⟨hmem, -, hdoms⟩ := foldl_pickBetter_some _ none a h
    have hmem' : a ∈ store.filter (fun a => a.status == .opened) := by
      rcases hmem with hm | hm
      · cases hm
      · exact hm
    obtain ⟨hstore, hopen⟩ := List.mem_filter.mp hmem'
    refine ⟨hstore, by simpa using hopen, fun b hb hbopen => ?_⟩
    exact hdoms b (List.mem_filter.mpr ⟨hb, by simpa using hbopen⟩)
  refine ⟨hsome, ?_, ?_⟩
  · intro store
    unfold get_highest_priority_alert
    constructor
    · intro h a ha
      obtain ⟨-, hnil⟩ := foldl_pickBetter_none _ none h
      have hfa := List.filter_eq_nil_iff.mp hnil a ha
      simpa using hfa
    · intro h
      have hnil : store.filter (fun a => a.status == .opened) = [] :=
        List.filter_eq_nil_iff.mpr (fun a ha => by simpa using h a ha)
      rw [hnil]
      rfl
  · intro store i store' hres ops
    have hinv : IdResolved i (runOps store' ops) :=
      runOps_idResolved ops (resolve_ok_idResolved hres)
    constructor
    · intro a ha hai
      obtain ⟨hstore, hopen, -⟩ := hsome _ a ha
      have hres' := hinv.2 a hstore hai
      rw [hopen] at hres'
      cases hres'
    · intro cat a ha hai
      unfold get_alerts_by_category at ha
      have ha' : a ∈ (runOps store' ops).filter
          (fun a => a.category == cat && !(a.status == .resolved)) :=
        (List.perm_insertionSort _ _).mem_iff.mp ha
      obtain ⟨hstore, hpred⟩ := List.mem_filter.mp ha'
      have hres' := hinv.2 a hstore hai
      simp [hres'] at hpred

/-- Claim C4, witness: resolving alert 1 in a two-alert store succeeds, and
the highest-priority alert of the resulting store (id 2) is not id 1. -/
theorem C4_highest_priority_witness :
    resolve_alert [Alert.mk 1 0 0 5 0 [] .opened, Alert.mk 2 0 0 3 0 [] .opened] 1
      = .ok [Alert.mk 1 0 0 5 0 [] .resolved, Alert.mk 2 0 0 3 0 [] .opened] ∧
    (2 : ℕ) ≠ 1 :=
  ⟨rfl, (C4_highest_priority.2.2 [Alert.mk 1 0 0 5 0 [] .opened, Alert.mk 2 0 0 3 0 [] .opened]
      1 [Alert.mk 1 0 0 5 0 [] .resolved, Alert.mk 2 0 0 3 0 [] .opened] rfl []).1
      (Alert.mk 2 0 0 3 0 [] .opened) rfl⟩

/-- The allowed status evolution of an alert: statuses only move along
opened → assigned → resolved, with no reverse transition. -/
def statusStep (s t : AlertStatus) : Prop :=
  match s, t with
  | .opened, _ => True
  | .assigned, .assigned => True
  | .assigned, .resolved => True
  | .resolved, .resolved => True
  | _, _ => False

theorem statusStep_refl (s : AlertStatus) : statusStep s s := by
  cases s <;> trivial

theorem statusStep_trans {s t u : AlertStatus} (h1 : statusStep s t)
    (h2 : statusStep t u) : statusStep s u := by
  cases s <;> cases t <;> cases u <;> simp_all [statusStep]

/-- A wellformed alert store: alert ids are pairwise distinct (register rejects
an id collision, so the AlertManager's store is id-keyed). -/
def WFStore (s : AlertStore) : Prop := (s.map Alert.id).Nodup

/-- Pointwise evolution of a store: each originally present alert keeps its id
and only moves forward along the status lifecycle; new alerts may be appended
beyond the original length. -/
def StoreLe (s s' : AlertStore) : Prop :=
  s.length ≤ s'.length ∧ ∀ (i : ℕ) (h1 : i < s.length) (h2 : i < s'.length),
    s[i].id = s'[i].id ∧ statusStep s[i].status s'[i].status

theorem StoreLe.rfl (s : AlertStore) : StoreLe s s :=
  ⟨le_refl _, fun i h1 h2 => ⟨by rfl, statusStep_refl _⟩⟩

theorem storeLe_trans {s t u : AlertStore} (h1 : StoreLe s t) (h2 : StoreLe t u) :
    StoreLe s u := by
  refine ⟨h1.1.trans h2.1, fun i hi1 hi2 => ?_⟩
  have hit : i < t.length := lt_of_lt_of_le hi1 h1.1
  obtain ⟨ha1, ha2⟩ := h1.2 i hi1 hit
  obtain ⟨hb1, hb2⟩ := h2.2 i hit hi2
  exact ⟨ha1.trans hb1, statusStep_trans ha2 hb2⟩

theorem wf_unique {s : AlertStore} (hwf : WFStore s) {a b : Alert}
    (ha : a ∈ s) (hb : b ∈ s) (hid : a.id = b.id) : a = b :=
  List.inj_on_of_nodup_map hwf ha hb hid

theorem applyOp_step {store : AlertStore} (op : AMOp) (hwf : WFStore store) :
    WFStore (applyOp store op) ∧ StoreLe store (applyOp store op) := by
  cases op with
  | register j cat sev sc now =>
    simp only [applyOp]
    cases hreg : register_alert store j cat sev sc now with
    | error e => exact ⟨hwf, StoreLe.rfl store⟩
    | ok s' =>
      obtain ⟨hfree, rfl⟩ := register_alert_ok hreg
      constructor
      · unfold WFStore at hwf ⊢
        rw [List.map_append]
        rw [List.nodup_append]
        refine ⟨hwf, List.nodup_singleton _, fun x hx hx' => ?_⟩
        obtain ⟨a, ha, rfl⟩ := List.mem_map.mp hx
        have hxj : a.id = j := by simpa using hx'
        exact hfree a ha hxj
      · refine ⟨by simp, fun i h1 h2 => ?_⟩
        rw [List.getElem_append_left h1]
        exact ⟨rfl, statusStep_refl _⟩
  | assign j u =>
    simp only [applyOp]
    cases hau : assign_unit store j u with
    | error e => exact ⟨hwf, StoreLe.rfl store⟩
    | ok s' =>
      obtain ⟨a, hfind, hres, rfl⟩ := assign_unit_ok hau
      have hamem : a ∈ store := List.mem_of_find?_eq_some hfind
      have haj : a.id = j := by simpa using List.find?_some hfind
      constructor
      · unfold WFStore at hwf ⊢
        rw [List.map_map]
        have hids : store.map (Alert.id ∘ fun b =>
            if b.id = j then { b with status := .assigned, units := u :: b.units } else b)
            = store.map Alert.id := by
          refine List.map_congr_left (fun b _ => ?_)
          by_cases hb : b.id = j
          · simp [hb]
          · simp [hb]
        rw [hids]
        exact hwf
      · refine ⟨by simp, fun i h1 h2 => ?_⟩
        rw [List.getElem_map]
        by_cases hb : store[i].id = j
        · have hba : store[i] = a :=
            wf_unique hwf (List.getElem_mem h1) hamem (hb.trans haj.symm)
          rw [if_pos hb]
          refine ⟨rfl, ?_⟩
          rw [hba]
          cases hst : a.status with
          | opened => trivial
          | assigned => trivial
          | resolved => exact absurd hst hres
        · rw [if_neg hb]
          exact ⟨rfl, statusStep_refl _⟩
  | resolve j =>
    simp only [applyOp]
    cases hra : resolve_alert store j with
    | error e => exact ⟨hwf, StoreLe.rfl store⟩
    | ok s' =>
      obtain ⟨a, hfind, hres, rfl⟩ := resolve_alert_ok hra
      have hamem : a ∈ store := List.mem_of_find?_eq_some hfind
      have haj : a.id = j := by simpa using List.find?_some hfind
      constructor
      · unfold WFStore at hwf ⊢
        rw [List.map_map]
        have hids : store.map (Alert.id ∘ fun b =>
            if b.id = j then { b with status := .resolved } else b)
            = store.map Alert.id := by
          refine List.map_congr_left (fun b _ => ?_)
          by_cases hb : b.id = j
          · simp [hb]
          · simp [hb]
        rw [hids]
        exact hwf
      · refine ⟨by simp, fun i h1 h2 => ?_⟩
        rw [List.getElem_map]
        by_cases hb : store[i].id = j
        · have hba : store[i] = a :=
            wf_unique hwf (List.getElem_mem h1) hamem (hb.trans haj.symm)
          rw [if_pos hb]
          refine ⟨rfl, ?_⟩
          rw [hba]
          cases hst : a.status with
          | opened => trivial
          | assigned => trivial
          | resolved => exact absurd hst hres
        · rw [if_neg hb]
          exact ⟨rfl, statusStep_refl _⟩
  | update f =>
    simp only [applyOp]
    unfold update_all_alerts
    constructor
    · unfold WFStore at hwf ⊢
      rw [List.map_map]
      have hids : store.map (Alert.id ∘ fun a =>
          if a.status = .resolved then a else { a with score := f a })
          = store.map Alert.id := by
        refine List.map_congr_left (fun b _ => ?_)
        by_cases hb : b.status = .resolved
        · simp [hb]
        · simp [hb]
      rw [hids]
      exact hwf
    · refine ⟨by simp, fun i h1 h2 => ?_⟩
      rw [List.getElem_map]
      by_cases hb : store[i].status = .resolved
      · rw [if_pos hb]
        exact ⟨rfl, statusStep_refl _⟩
      · rw [if_neg hb]
        exact ⟨rfl, statusStep_refl _⟩

theorem runOps_step {store : AlertStore} (ops : List AMOp) (hwf : WFStore store) :
    WFStore (runOps store ops) ∧ StoreLe store (runOps store ops) := by
  induction ops generalizing store with
  | nil => exact ⟨hwf, StoreLe.rfl store⟩
  | cons op rest ih =>
    obtain ⟨hwf1, hle1⟩ := applyOp_step op hwf
    obtain ⟨hwf2, hle2⟩ := ih hwf1
    exact ⟨hwf2, storeLe_trans hle1 hle2⟩

/-- Claim C5: over any sequence of AlertManager operations on a wellformed
store, every alert's status only moves along opened → assigned → resolved
(`StoreLe`, no reverse transition); and `resolve_alert` on an unknown id, or
on an alert that is not open or assigned, fails with `InvalidStateError` and
leaves the alert set unchanged. -/
theorem C5_status_lifecycle :
    (∀ (ops : List AMOp) (store : AlertStore), WFStore store →
      StoreLe store (runOps store ops)) ∧
    (∀ (store : AlertStore) (i : ℕ) (e : AMError),
      resolve_alert store i = .error e →
      applyOp store (.resolve i) = store ∧ e = .InvalidStateError) ∧
    (∀ (store : AlertStore) (i : ℕ), (∀ a ∈ store, a.id ≠ i) →
      resolve_alert store i = .error .InvalidStateError) ∧
    (∀ (store : AlertStore) (i : ℕ) (a : Alert), WFStore store → a ∈ store →
      a.id = i → a.status = .resolved →
      resolve_alert store i = .error .InvalidStateError) := by
  refine ⟨fun ops store hwf => (runOps_step ops hwf).2, ?_, ?_, ?_⟩
  · intro store i e h
    constructor
    · simp only [applyOp, h]
    · unfold resolve_alert at h
      split at h
      · exact (Except.error.inj h).symm
      · split at h
        · exact (Except.error.inj h).symm
        · cases h
  · intro store i hfree
    unfold resolve_alert
    split
    · rfl
    · rename_i a hfind
      have haj : a.id = i := by simpa using List.find?_some hfind
      exact absurd haj (hfree a (List.mem_of_find?_eq_some hfind))
  · intro store i a hwf ha hai hres
    unfold resolve_alert
    split
    · rfl
    · rename_i b hfind
      have hbi : b.id = i := by simpa using List.find?_some hfind
      have hab : a = b :=
        wf_unique hwf ha (List.mem_of_find?_eq_some hfind) (hai.trans hbi.symm)
      rw [if_pos (by rw [← hab]; exact hres)]

/-- Claim C5, witness: resolving an already-resolved alert in a wellformed
one-alert store fails with `InvalidStateError`, by the claim theorem. -/
theorem C5_status_lifecycle_witness :
    WFStore [Alert.mk 1 0 0 5 0 [] .resolved] ∧
    resolve_alert [Alert.mk 1 0 0 5 0 [] .resolved] 1
      = .error .InvalidStateError := by
  have hwf : WFStore [Alert.mk 1 0 0 5 0 [] .resolved] := by
    simp [WFStore]
  exact ⟨hwf, C5_status_lifecycle.2.2.2 _ 1 (Alert.mk 1 0 0 5 0 [] .resolved)
    hwf (List.mem_singleton_self _) rfl rfl⟩

/-! ## AnalyticsEngine (backend component, absent from the checked-in sources) -/

/-- Modelled from the spec: the incident-analysis summary object — aggregate
counts of resolved and open incidents and the mean time-to-resolution. -/
structure IncidentSummary where
  resolvedCount : ℕ
  openCount : ℕ
  meanResolutionTime : ℚ
deriving DecidableEq

/-- Modelled from the spec: the queryable state of the AnalyticsEngine — the
grid dimensions, a mapping from metric name to a row-major array of cell
values, a mapping from metric name to an ordered array of (timestamp, value)
pairs, and the incident-analysis summary. -/
structure AnalyticsState where
  rows : ℕ
  cols : ℕ
  grid : List (String × List ℚ)
  series : List (String × List (ℕ × ℚ))
  incidents : IncidentSummary
deriving DecidableEq

/-- A self-describing structured document, the single export artifact of
`export_data` (numbers, naturals, strings, arrays, objects). -/
inductive Doc where
  | num (q : ℚ)
  | nat (n : ℕ)
  | str (s : String)
  | arr (items : List Doc)
  | obj (fields : List (String × Doc))

/-- Serialize the grid: a mapping from metric name to the row-major array of
its cell values. -/
def exportGrid (grid : List (String × List ℚ)) : Doc :=
  .obj (grid.map fun mv => (mv.1, .arr (mv.2.map Doc.num)))

/-- Serialize the time series: a mapping from metric name to the ordered array
of its (timestamp, value) pairs. -/
def exportSeries (series : List (String × List (ℕ × ℚ))) : Doc :=
  .obj (series.map fun mp =>
    (mp.1, .arr (mp.2.map fun tv => .arr [.nat tv.1, .num tv.2])))

/-- Serialize the incident-analysis summary object. -/
def exportIncidents (s : IncidentSummary) : Doc :=
  .obj [("resolved_count", .nat s.resolvedCount),
        ("open_count", .nat s.openCount),
        ("mean_resolution_time", .num s.meanResolutionTime)]

/-- Modelled from the spec: `export_data` — one structured document holding
the grid dimensions, the metric-to-cells mapping, the metric-to-series
mapping, and the incident-analysis summary. -/
def export_data (st : AnalyticsState) : Doc :=
  .obj [("rows", .nat st.rows), ("cols", .nat st.cols),
        ("grid", exportGrid st.grid), ("series", exportSeries st.series),
        ("incident_analysis", exportIncidents st.incidents)]

/-- Parse every element of a list, failing if any element fails. -/
def parseList {α β : Type} (f : α → Option β) : List α → Option (List β)
  | [] => some []
  | x :: xs =>
    match f x, parseList f xs with
    | some y, some ys => some (y :: ys)
    | _, _ => none

/-- Parse one number document. -/
def parseNum : Doc → Option ℚ
  | .num q => some q
  | _ => none

/-- Parse one (timestamp, value) pair document. -/
def parsePoint : Doc → Option (ℕ × ℚ)
  | .arr [.nat t, .num v] => some (t, v)
  | _ => none

/-- Parse one named grid entry back into a metric row-major array. -/
def parseGridEntry : String × Doc → Option (String × List ℚ)
  | (m, .arr ds) => (parseList parseNum ds).map (fun vs => (m, vs))
  | _ => none

/-- Parse one named series entry back into a metric point list. -/
def parseSeriesEntry : String × Doc → Option (String × List (ℕ × ℚ))
  | (m, .arr ds) => (parseList parsePoint ds).map (fun ps => (m, ps))
  | _ => none

/-- Parse the grid mapping of an exported document. -/
def ingestGrid : Doc → Option (List (String × List ℚ))
  | .obj fields => parseList parseGridEntry fields
  | _ => none

/-- Parse the time-series mapping of an exported document. -/
def ingestSeries : Doc → Option (List (String × List (ℕ × ℚ)))
  | .obj fields => parseList parseSeriesEntry fields
  | _ => none

/-- Parse the incident-analysis summary of an exported document. -/
def ingestIncidents : Doc → Option IncidentSummary
  | .obj [(k1, .nat rc), (k2, .nat oc), (k3, .num mt)] =>
    if k1 = "resolved_count" ∧ k2 = "open_count" ∧ k3 = "mean_resolution_time"
    then some ⟨rc, oc, mt⟩ else none
  | _ => none

/-- Modelled from the spec: re-ingest an exported document, reconstructing the
AnalyticsEngine state (grid dimensions, grid contents, time-series contents,
incident summary); fails on any malformed document. -/
def ingest : Doc → Option AnalyticsState
  | .obj [(k1, .nat r), (k2, .nat c), (k3, g), (k4, s), (k5, ia)] =>
    if k1 = "rows" ∧ k2 = "cols" ∧ k3 = "grid" ∧ k4 = "series" ∧
        k5 = "incident_analysis" then
      match ingestGrid g, ingestSeries s, ingestIncidents ia with
      | some grid, some series, some inc => some ⟨r, c, grid, series, inc⟩
      | _, _, _ => none
    else none
  | _ => none

theorem parseList_map {α β : Type} (f : α → Option β) (g : β → α)
    (h : ∀ b, f (g b) = some b) (l : List β) :
    parseList f (l.map g) = some l := by
  induction l with
  | nil => rfl
  | cons b bs ih => simp [parseList, h b, ih]

theorem ingestGrid_exportGrid (grid : List (String × List ℚ)) :
    ingestGrid (exportGrid grid) = some grid := by
  unfold ingestGrid exportGrid
  refine parseList_map _ _ (fun mv => ?_) grid
  obtain ⟨m, vs⟩ := mv
  show (parseList parseNum (vs.map Doc.num)).map (fun l => (m, l)) = some (m, vs)
  rw [parseList_map parseNum Doc.num (fun q => rfl) vs]
  rfl

theorem ingestSeries_exportSeries (series : List (String × List (ℕ × ℚ))) :
    ingestSeries (exportSeries series) = some series := by
  unfold ingestSeries exportSeries
  refine parseList_map _ _ (fun mp => ?_) series
  obtain ⟨m, ps⟩ := mp
  show (parseList parsePoint
      (ps.map fun tv => Doc.arr [Doc.nat tv.1, Doc.num tv.2])).map (fun l => (m, l))
    = some (m, ps)
  rw [parseList_map parsePoint (fun tv => Doc.arr [Doc.nat tv.1, Doc.num tv.2])
    (fun tv => rfl) ps]
  rfl

/-- Claim C7: `export_data` followed by re-ingesting the exported document
reproduces the full AnalyticsEngine state — in particular grid contents and
time-series contents identical to the originals (serialization fidelity). -/
theorem C7_export_roundtrip (st : AnalyticsState) :
    ingest (export_data st) = some st := by
  show (if ("rows" : String) = "rows" ∧ ("cols" : String) = "cols" ∧
      ("grid" : String) = "grid" ∧ ("series" : String) = "series" ∧
      ("incident_analysis" : String) = "incident_analysis" then
      match ingestGrid (exportGrid st.grid), ingestSeries (exportSeries st.series),
        ingestIncidents (exportIncidents st.incidents) with
      | some grid, some series, some inc =>
        some ⟨st.rows, st.cols, grid, series, inc⟩
      | _, _, _ => none
    else none) = some st
  rw [if_pos ⟨rfl, rfl, rfl, rfl, rfl⟩]
  rw [ingestGrid_exportGrid, ingestSeries_exportSeries]
  rfl

/-! ## RoutingGraph (backend component, absent from the checked-in sources) -/

/-- Modelled from the spec: a routing node — id, coordinates, capacity,
current load (a 0–1 fraction) and accessibility flag. -/
structure RNode where
  nid : ℕ
  x : ℚ
  y : ℚ
  capacity : ℕ
  load : ℚ
  accessible : Bool
deriving DecidableEq

/-- Modelled from the spec: a routing edge — an undirected pair of node ids
and a base distance. -/
structure REdge where
  ea : ℕ
  eb : ℕ
  dist : ℚ
deriving DecidableEq

/-- Modelled from the spec: the routing graph over named locations. -/
structure RGraph where
  nodes : List RNode
  edges : List REdge
deriving DecidableEq

/-- Look up a node by id. -/
def getNode (g : RGraph) (i : ℕ) : Option RNode :=
  g.nodes.find? (fun n => n.nid == i)

/-- The load of a node id (0 when unknown). -/
def nodeLoad (g : RGraph) (i : ℕ) : ℚ :=
  ((getNode g i).map RNode.load).getD 0

/-- The accessibility flag of a node id (false when unknown). -/
def nodeAcc (g : RGraph) (i : ℕ) : Bool :=
  ((getNode g i).map RNode.accessible).getD false

/-- Modelled from the spec: derived traversal cost of an edge —
distance × (1 + load-penalty-of-both-endpoints). -/
def edgeCost (g : RGraph) (e : REdge) : ℚ :=
  e.dist * (1 + nodeLoad g e.ea + nodeLoad g e.eb)

/-- Modelled from the spec: an edge is usable when accessibility is not
required, or both endpoints are accessible (accessibility of an edge is the
accessibility of both endpoints; failing edges are excluded entirely). -/
def edgeOk (g : RGraph) (accReq : Bool) (e : REdge) : Bool :=
  !accReq || (nodeAcc g e.ea && nodeAcc g e.eb)

/-- The usable neighbors of a node with their traversal costs (edges are
traversable in both directions), in stable edge order. -/
def adjacency (g : RGraph) (accReq : Bool) (u : ℕ) : List (ℕ × ℚ) :=
  g.edges.foldr (fun e acc =>
    if edgeOk g accReq e then
      if e.ea = u then (e.eb, edgeCost g e) :: acc
      else if e.eb = u then (e.ea, edgeCost g e) :: acc
      else acc
    else acc) []

/-- The nodes of the (possibly accessibility-filtered) search graph. -/
def searchNodes (g : RGraph) (accReq : Bool) : List RNode :=
  if accReq then g.nodes.filter RNode.accessible else g.nodes

/-- The node ids of the (possibly accessibility-filtered) search graph. -/
def searchIds (g : RGraph) (accReq : Bool) : List ℕ :=
  (searchNodes g accReq).map RNode.nid

/-- Fold computing the nearest search node to a coordinate (squared euclidean
distance, first wins ties — stable, deterministic). -/
def snapFold (g : RGraph) (accReq : Bool) (c : ℚ × ℚ) : Option (ℕ × ℚ) :=
  (searchNodes g accReq).foldl (fun best n =>
    match best with
    | none => some (n.nid, (n.x - c.1) * (n.x - c.1) + (n.y - c.2) * (n.y - c.2))
    | some bd =>
      if (n.x - c.1) * (n.x - c.1) + (n.y - c.2) * (n.y - c.2) < bd.2 then
        some (n.nid, (n.x - c.1) * (n.x - c.1) + (n.y - c.2) * (n.y - c.2))
      else best) none

/-- Modelled from the spec: snap a coordinate to the nearest node of the
search graph. -/
def snapNode (g : RGraph) (accReq : Bool) (c : ℚ × ℚ) : Option ℕ :=
  (snapFold g accReq c).map Prod.fst

/-- A best-first search problem: the node ids, the adjacency function of the
filtered graph, and the heuristic added to tentative costs when ordering the
frontier (`fun v => 0` gives Dijkstra; the straight-line-distance heuristic of
the spec's A* enters the theorems only through its consistency). -/
structure SearchProb where
  ids : List ℕ
  adj : ℕ → List (ℕ × ℚ)
  heur : ℕ → ℚ

/-- Search state: per-node best known (reversed path, cost), and the list of
settled (visited) nodes. -/
structure SearchState where
  dist : ℕ → Option (List ℕ × ℚ)
  visited : List ℕ

/-- One step of the frontier-minimum fold: keep the incumbent unless `v` is
unvisited, has an entry, and strictly beats the incumbent's key. -/
def pickStep (p : SearchProb) (st : SearchState) (best : Option (ℕ × ℚ)) (v : ℕ) :
    Option (ℕ × ℚ) :=
  if st.visited.contains v then best
  else
    match st.dist v with
    | none => best
    | some pc =>
      match best with
      | none => some (v, pc.2 + p.heur v)
      | some bk => if pc.2 + p.heur v < bk.2 then some (v, pc.2 + p.heur v) else best

/-- Select the unvisited node with least tentative cost plus heuristic
(first wins ties — the stable, deterministic tie-break of the spec), returning
it with its key. -/
def pickFold (p : SearchProb) (st : SearchState) : Option (ℕ × ℚ) :=
  p.ids.foldl (pickStep p st) none

/-- The next node the search settles, if any. -/
def pickMin (p : SearchProb) (st : SearchState) : Option ℕ :=
  (pickFold p st).map Prod.fst

/-- Whether a candidate cost `nd` improves on the current entry (always, when
no entry exists; on strictly smaller cost otherwise). -/
def betterCost (cur : Option (List ℕ × ℚ)) (nd : ℚ) : Bool :=
  match cur with
  | none => true
  | some pc => nd < pc.2

/-- Relax one outgoing edge `vw` of the node being settled, whose reversed
path is `pu` and cost is `du`: improve the neighbor's entry when the new cost
is strictly smaller (or no entry exists); visited neighbors are final. -/
def relaxOne (pu : List ℕ) (du : ℚ) (st : SearchState) (vw : ℕ × ℚ) : SearchState :=
  if st.visited.contains vw.1 then st
  else if betterCost (st.dist vw.1) (du + vw.2) then
    { st with dist := fun x => if x = vw.1 then some (vw.1 :: pu, du + vw.2) else st.dist x }
  else st

/-- Relax all edges of the node `u` being settled. -/
def relax (p : SearchProb) (u : ℕ) (st : SearchState) : SearchState :=
  match st.dist u with
  | some pc => (p.adj u).foldl (relaxOne pc.1 pc.2) st
  | none => st

/-- Settle `u` and relax its edges. -/
def stepState (p : SearchProb) (u : ℕ) (st : SearchState) : SearchState :=
  relax p u { st with visited := u :: st.visited }

/-- The fuelled main loop: settle the minimum-key unvisited node until the
frontier is exhausted or fuel runs out (fuel `|ids|` suffices to exhaust). -/
def loopSearch (p : SearchProb) : ℕ → SearchState → SearchState
  | 0, st => st
  | fuel + 1, st =>
    match pickMin p st with
    | none => st
    | some u => loopSearch p fuel (stepState p u st)

/-- The initial state: the source holds the trivial path at cost 0. -/
def initState (s : ℕ) : SearchState :=
  { dist := fun v => if v = s then some ([s], 0) else none, visited := [] }

/-- Run the search from `s` to frontier exhaustion. -/
def runSearch (p : SearchProb) (s : ℕ) : SearchState :=
  loopSearch p p.ids.length (initState s)

/-- The search answer for target `t`: the path (in forward order) and its
total cost, or `none` when `t` was never reached. -/
def searchResult (p : SearchProb) (s t : ℕ) : Option (List ℕ × ℚ) :=
  ((runSearch p s).dist t).map (fun pc => (pc.1.reverse, pc.2))

/-- The two path algorithms of `find_path`. -/
inductive Algo where
  | astar
  | dijkstra
deriving DecidableEq

/-- Modelled from the spec: the routing error taxonomy relevant here. -/
inductive RouteError where
  | NoPathError
deriving DecidableEq

/-- The search problem solved by `find_path`: the accessibility-filtered ids
and adjacency, with the zero heuristic for Dijkstra and the supplied goal
heuristic for A*. -/
def routeProb (g : RGraph) (accReq : Bool) (alg : Algo) (heur : ℕ → ℚ) : SearchProb :=
  { ids := searchIds g accReq,
    adj := adjacency g accReq,
    heur := match alg with
      | .dijkstra => fun _ => 0
      | .astar => heur }

/-- Modelled from the spec: `find_path` snaps both coordinates to nearest
nodes of the filtered graph, then runs the selected shortest-path algorithm;
it fails with `NoPathError` when start and end are in different connected
components after accessibility filtering (or no node can be snapped). -/
def find_path (g : RGraph) (sc ec : ℚ × ℚ) (accReq : Bool) (alg : Algo)
    (heur : ℕ → ℚ) : Except RouteError (List ℕ × ℚ) :=
  match snapNode g accReq sc, snapNode g accReq ec with
  | some s, some t =>
    match searchResult (routeProb g accReq alg heur) s t with
    | some pc => .ok pc
    | none => .error .NoPathError
  | _, _ => .error .NoPathError

/-- A path of the search graph from `s` to its head node, stored target-first
(as the search stores it), with its total cost. -/
inductive RPath (adj : ℕ → List (ℕ × ℚ)) (s : ℕ) : ℕ → List ℕ → ℚ → Prop where
  | nil : RPath adj s s [s] 0
  | cons {u v : ℕ} {w : ℚ} {p : List ℕ} {c : ℚ} :
      RPath adj s u p c → (v, w) ∈ adj u → RPath adj s v (v :: p) (c + w)

/-- Two nodes lie in the same connected component of the search graph. -/
def Reachable (adj : ℕ → List (ℕ × ℚ)) (s t : ℕ) : Prop :=
  ∃ p c, RPath adj s t p c

theorem RPath.cost_nonneg {adj : ℕ → List (ℕ × ℚ)}
    (hn : ∀ u vw, vw ∈ adj u → 0 ≤ vw.2) {s v : ℕ} {lst : List ℕ} {c : ℚ}
    (h : RPath adj s v lst c) : 0 ≤ c := by
  induction h with
  | nil => exact le_refl 0
  | cons hp hm ih => exact add_nonneg ih (hn _ _ hm)

theorem pickStep_keep {p : SearchProb} {st : SearchState} {best : Option (ℕ × ℚ)}
    {v : ℕ} (hv : v ∈ st.visited ∨ st.dist v = none) :
    pickStep p st best v = best := by
  unfold pickStep
  rcases hv with hv | hv
  · rw [if_pos (List.elem_eq_true_of_mem hv)]
  · by_cases hc : st.visited.contains v
    · rw [if_pos hc]
    · rw [if_neg hc, hv]

theorem pickStep_none_acc {p : SearchProb} {st : SearchState} {v : ℕ}
    {pc : List ℕ × ℚ} (hnv : v ∉ st.visited) (hd : st.dist v = some pc) :
    pickStep p st none v = some (v, pc.2 + p.heur v) := by
  unfold pickStep
  rw [if_neg (fun hc => hnv (List.mem_of_elem_eq_true hc)), hd]

theorem pickStep_some_acc {p : SearchProb} {st : SearchState} {v : ℕ}
    {pc : List ℕ × ℚ} {bk : ℕ × ℚ} (hnv : v ∉ st.visited) (hd : st.dist v = some pc) :
    pickStep p st (some bk) v =
      if pc.2 + p.heur v < bk.2 then some (v, pc.2 + p.heur v) else some bk := by
  unfold pickStep
  rw [if_neg (fun hc => hnv (List.mem_of_elem_eq_true hc)), hd]

theorem foldl_pickStep_spec (p : SearchProb) (st : SearchState) (l : List ℕ)
    (acc : Option (ℕ × ℚ)) :
    (l.foldl (pickStep p st) acc = none →
      acc = none ∧ ∀ v ∈ l, v ∉ st.visited → st.dist v = none) ∧
    (∀ u k, l.foldl (pickStep p st) acc = some (u, k) →
      (acc = some (u, k) ∨
        (u ∈ l ∧ u ∉ st.visited ∧ ∃ lst c, st.dist u = some (lst, c) ∧ k = c + p.heur u)) ∧
      (∀ bk, acc = some bk → k ≤ bk.2) ∧
      (∀ v ∈ l, v ∉ st.visited → ∀ lst c, st.dist v = some (lst, c) →
        k ≤ c + p.heur v)) := by
  induction l generalizing acc with
  | nil =>
    constructor
    · intro h
      exact ⟨h, fun v hv => absurd hv (List.not_mem_nil v)⟩
    · intro u k h
      rw [List.foldl_nil] at h
      refine ⟨Or.inl h, ?_, fun v hv => absurd hv (List.not_mem_nil v)⟩
      intro bk hbk
      rw [h] at hbk
      obtain rfl := Option.some.inj hbk
      exact le_refl _
  | cons a l ih =>
    rw [List.foldl_cons]
    by_cases hva : a ∈ st.visited
    · rw [pickStep_keep (Or.inl hva)]
      obtain ⟨ihn, ihs⟩ := ih acc
      constructor
      · intro h
        obtain ⟨h1, h2⟩ := ihn h
        refine ⟨h1, fun v hv hnv => ?_⟩
        rcases List.mem_cons.mp hv with rfl | hv'
        · exact absurd hva hnv
        · exact h2 v hv' hnv
      · intro u k h
        obtain ⟨h1, h2, h3⟩ := ihs u k h
        refine ⟨?_, h2, ?_⟩
        · rcases h1 with h1 | h1
          · exact Or.inl h1
          · exact Or.inr ⟨List.mem_cons_of_mem a h1.1, h1.2⟩
        · intro v hv hnv lst c hd
          rcases List.mem_cons.mp hv with rfl | hv'
          · exact absurd hva hnv
          · exact h3 v hv' hnv lst c hd
    · cases hda : st.dist a with
      | none =>
        rw [pickStep_keep (Or.inr hda)]
        obtain ⟨ihn, ihs⟩ := ih acc
        constructor
        · intro h
          obtain ⟨h1, h2⟩ := ihn h
          refine ⟨h1, fun v hv hnv => ?_⟩
          rcases List.mem_cons.mp hv with rfl | hv'
          · exact hda
          · exact h2 v hv' hnv
        · intro u k h
          obtain ⟨h1, h2, h3⟩ := ihs u k h
          refine ⟨?_, h2, ?_⟩
          · rcases h1 with h1 | h1
            · exact Or.inl h1
            · exact Or.inr ⟨List.mem_cons_of_mem a h1.1, h1.2⟩
          · intro v hv hnv lst c hd
            rcases List.mem_cons.mp hv with rfl | hv'
            · rw [hda] at hd
              cases hd
            · exact h3 v hv' hnv lst c hd
      | some pc =>
        obtain ⟨u0, k0, hs0, hk0a, hk0acc, hu0⟩ :
            ∃ u0 k0, pickStep p st acc a = some (u0, k0) ∧
              k0 ≤ pc.2 + p.heur a ∧
              (∀ bk, acc = some bk → k0 ≤ bk.2) ∧
              (acc = some (u0, k0) ∨
                (u0 = a ∧ ∃ lst c, st.dist u0 = some (lst, c) ∧ k0 = c + p.heur u0)) := by
          cases acc with
          | none =>
            refine ⟨a, pc.2 + p.heur a, pickStep_none_acc hva hda, le_refl _, ?_, ?_⟩
            · intro bk hbk
              cases hbk
            · exact Or.inr ⟨rfl, pc.1, pc.2, by rw [hda], rfl⟩
          | some bk =>
            rw [pickStep_some_acc hva hda]
            by_cases hlt : pc.2 + p.heur a < bk.2
            · rw [if_pos hlt]
              refine ⟨a, pc.2 + p.heur a, rfl, le_refl _, ?_, ?_⟩
              · intro bk' hbk'
                obtain rfl := Option.some.inj hbk'
                exact hlt.le
              · exact Or.inr ⟨rfl, pc.1, pc.2, by rw [hda], rfl⟩
            · rw [if_neg hlt]
              refine ⟨bk.1, bk.2, rfl, le_of_not_lt hlt, ?_, Or.inl rfl⟩
              intro bk' hbk'
              obtain rfl := Option.some.inj hbk'
              exact le_refl _
        obtain ⟨ihn, ihs⟩ := ih (pickStep p st acc a)
        constructor
        · intro h
          obtain ⟨h1, -⟩ := ihn h
          rw [hs0] at h1
          cases h1
        · intro u k h
          obtain ⟨h1, h2, h3⟩ := ihs u k h
          have hkk0 : k ≤ k0 := h2 (u0, k0) hs0
          refine ⟨?_, fun bk hbk => hkk0.trans (hk0acc bk hbk), ?_⟩
          · rcases h1 with h1 | h1
            · rw [hs0] at h1
              obtain ⟨rfl, rfl⟩ := Prod.mk.inj (Option.some.inj h1)
              rcases hu0 with hacc | ⟨rfl, lst, c, hd, hk0⟩
              · exact Or.inl hacc
              · exact Or.inr ⟨List.mem_cons_self _ _, hva, lst, c, hd, hk0⟩
            · exact Or.inr ⟨List.mem_cons_of_mem a h1.1, h1.2⟩
          · intro v hv hnv lst c hd
            rcases List.mem_cons.mp hv with rfl | hv'
            · rw [hda] at hd
              obtain rfl := Option.some.inj hd
              exact hkk0.trans hk0a
            · exact h3 v hv' hnv lst c hd

theorem pickMin_some {p : SearchProb} {st : SearchState} {u : ℕ}
    (h : pickMin p st = some u) :
    u ∈ p.ids ∧ u ∉ st.visited ∧ ∃ lst c, st.dist u = some (lst, c) ∧
      ∀ v ∈ p.ids, v ∉ st.visited → ∀ lst' c', st.dist v = some (lst', c') →
        c + p.heur u ≤ c' + p.heur v := by
  unfold pickMin pickFold at h
  cases hf : p.ids.foldl (pickStep p st) none with
  | none => rw [hf] at h; cases h
  | some uk =>
    rw [hf] at h
    obtain rfl : uk.1 = u := Option.some.inj h
    obtain ⟨h1, -, h3⟩ := (foldl_pickStep_spec p st p.ids none).2 uk.1 uk.2 (by rw [hf])
    rcases h1 with h1 | ⟨hmem, hnv, lst, c, hd, hk⟩
    · cases h1
    · exact ⟨hmem, hnv, lst, c, hd, fun v hv hnv' lst' c' hd' => by
        rw [← hk]; exact h3 v hv hnv' lst' c' hd'⟩

theorem pickMin_none {p : SearchProb} {st : SearchState}
    (h : pickMin p st = none) :
    ∀ v ∈ p.ids, v ∉ st.visited → st.dist v = none := by
  unfold pickMin pickFold at h
  cases hf : p.ids.foldl (pickStep p st) none with
  | none => exact ((foldl_pickStep_spec p st p.ids none).1 hf).2
  | some uk => rw [hf] at h; cases h

theorem relaxOne_visited (pu : List ℕ) (du : ℚ) (st : SearchState) (vw : ℕ × ℚ) :
    (relaxOne pu du st vw).visited = st.visited := by
  unfold relaxOne
  by_cases hc : st.visited.contains vw.1
  · rw [if_pos hc]
  · rw [if_neg hc]
    by_cases hb : betterCost (st.dist vw.1) (du + vw.2)
    · rw [if_pos hb]
    · rw [if_neg hb]

theorem relaxOne_cases (pu : List ℕ) (du : ℚ) (st : SearchState) (vw : ℕ × ℚ)
    (x : ℕ) :
    (relaxOne pu du st vw).dist x = st.dist x ∨
    (x = vw.1 ∧ x ∉ st.visited ∧
      (relaxOne pu du st vw).dist x = some (vw.1 :: pu, du + vw.2) ∧
      ∀ pc, st.dist x = some pc → du + vw.2 < pc.2) := by
  unfold relaxOne
  by_cases hc : st.visited.contains vw.1
  · rw [if_pos hc]
    exact Or.inl rfl
  · rw [if_neg hc]
    have hnv : vw.1 ∉ st.visited := fun hm => hc (List.elem_eq_true_of_mem hm)
    by_cases hb : betterCost (st.dist vw.1) (du + vw.2)
    · rw [if_pos hb]
      by_cases hx : x = vw.1
      · refine Or.inr ⟨hx, hx ▸ hnv, ?_, ?_⟩
        · show (if x = vw.1 then some (vw.1 :: pu, du + vw.2) else st.dist x)
            = some (vw.1 :: pu, du + vw.2)
          rw [if_pos hx]
        · intro pc hpc
          rw [hx] at hpc
          unfold betterCost at hb
          rw [hpc] at hb
          exact of_decide_eq_true hb
      · refine Or.inl ?_
        show (if x = vw.1 then some (vw.1 :: pu, du + vw.2) else st.dist x) = st.dist x
        rw [if_neg hx]
    · rw [if_neg hb]
      exact Or.inl rfl

theorem relaxOne_self {pu : List ℕ} {du : ℚ} {st : SearchState} {vw : ℕ × ℚ}
    (hnv : vw.1 ∉ st.visited) :
    ∃ pc', (relaxOne pu du st vw).dist vw.1 = some pc' ∧ pc'.2 ≤ du + vw.2 := by
  unfold relaxOne
  rw [if_neg (fun hc => hnv (List.mem_of_elem_eq_true hc))]
  by_cases hb : betterCost (st.dist vw.1) (du + vw.2)
  · rw [if_pos hb]
    refine ⟨(vw.1 :: pu, du + vw.2), ?_, le_refl _⟩
    show (if vw.1 = vw.1 then some (vw.1 :: pu, du + vw.2) else st.dist vw.1)
      = some (vw.1 :: pu, du + vw.2)
    rw [if_pos rfl]
  · rw [if_neg hb]
    cases hd : st.dist vw.1 with
    | none =>
      exfalso
      unfold betterCost at hb
      rw [hd] at hb
      exact hb rfl
    | some pc =>
      refine ⟨pc, rfl, ?_⟩
      unfold betterCost at hb
      rw [hd] at hb
      exact le_of_not_lt (fun hlt => hb (decide_eq_true hlt))

theorem relaxList_visited (pu : List ℕ) (du : ℚ) (l : List (ℕ × ℚ))
    (st : SearchState) :
    (l.foldl (relaxOne pu du) st).visited = st.visited := by
  induction l generalizing st with
  | nil => rfl
  | cons a t ih =>
    rw [List.foldl_cons, ih (relaxOne pu du st a), relaxOne_visited]

theorem relaxList_frozen {pu : List ℕ} {du : ℚ} {l : List (ℕ × ℚ)}
    {st : SearchState} {x : ℕ} (hx : x ∈ st.visited) :
    (l.foldl (relaxOne pu du) st).dist x = st.dist x := by
  induction l generalizing st with
  | nil => rfl
  | cons a t ih =>
    rw [List.foldl_cons]
    have hone : (relaxOne pu du st a).dist x = st.dist x := by
      rcases relaxOne_cases pu du st a x with h | ⟨-, hnv, -, -⟩
      · exact h
      · exact absurd hx hnv
    rw [@ih (relaxOne pu du st a) (by rw [relaxOne_visited]; exact hx), hone]

theorem relaxList_mono {pu : List ℕ} {du : ℚ} {l : List (ℕ × ℚ)}
    {st : SearchState} {x : ℕ} {pc : List ℕ × ℚ} (hx : st.dist x = some pc) :
    ∃ pc', (l.foldl (relaxOne pu du) st).dist x = some pc' ∧ pc'.2 ≤ pc.2 := by
  induction l generalizing st pc with
  | nil => exact ⟨pc, hx, le_refl _⟩
  | cons a t ih =>
    rw [List.foldl_cons]
    rcases relaxOne_cases pu du st a x with h | ⟨-, -, hupd, hlt⟩
    · exact ih (by rw [h]; exact hx)
    · obtain ⟨pc', h1, h2⟩ := @ih (relaxOne pu du st a) _ hupd
      exact ⟨pc', h1, h2.trans (hlt pc hx).le⟩

theorem relaxList_new {pu : List ℕ} {du : ℚ} {l : List (ℕ × ℚ)}
    {st : SearchState} {x : ℕ} {pc' : List ℕ × ℚ}
    (h : (l.foldl (relaxOne pu du) st).dist x = some pc') :
    st.dist x = some pc' ∨ ∃ w, (x, w) ∈ l ∧ pc' = (x :: pu, du + w) := by
  induction l generalizing st with
  | nil => exact Or.inl h
  | cons a t ih =>
    rw [List.foldl_cons] at h
    rcases ih h with h1 | ⟨w, hw, hpc⟩
    · rcases relaxOne_cases pu du st a x with h2 | ⟨hx, -, hupd, -⟩
      · exact Or.inl (by rw [← h2]; exact h1)
      · rw [hupd] at h1
        obtain rfl := Option.some.inj h1
        refine Or.inr ⟨a.2, ?_, by rw [hx]⟩
        have : (a.1, a.2) = a := rfl
        rw [hx, this]
        exact List.mem_cons_self a t
    · exact Or.inr ⟨w, List.mem_cons_of_mem a hw, hpc⟩

theorem relaxList_establish {pu : List ℕ} {du : ℚ} {l : List (ℕ × ℚ)}
    {st : SearchState} {vw : ℕ × ℚ} (hvw : vw ∈ l) (hnv : vw.1 ∉ st.visited) :
    ∃ pc', (l.foldl (relaxOne pu du) st).dist vw.1 = some pc' ∧
      pc'.2 ≤ du + vw.2 := by
  induction l generalizing st with
  | nil => cases hvw
  | cons a t ih =>
    rw [List.foldl_cons]
    rcases List.mem_cons.mp hvw with rfl | hvw'
    · obtain ⟨pc1, h1, h2⟩ := @relaxOne_self pu du _ _ hnv
      obtain ⟨pc', h3, h4⟩ := relaxList_mono (l := t) h1
      exact ⟨pc', h3, h4.trans h2⟩
    · exact ih hvw' (by rw [relaxOne_visited]; exact hnv)

theorem relax_eq_of_dist {p : SearchProb} {u : ℕ} {st : SearchState}
    {pc : List ℕ × ℚ} (h : st.dist u = some pc) :
    relax p u st = (p.adj u).foldl (relaxOne pc.1 pc.2) st := by
  unfold relax
  rw [h]

/-- The basic search invariant: the source entry is pinned at cost 0, every
entry is realized by an actual path of that cost (soundness), every settled
node has an entry, and every edge out of a settled node into the unsettled
region has been relaxed (frontier). -/
structure BasicInv (p : SearchProb) (s : ℕ) (st : SearchState) : Prop where
  src : st.dist s = some ([s], 0)
  sound : ∀ v lst c, st.dist v = some (lst, c) → RPath p.adj s v lst c
  vis_some : ∀ x ∈ st.visited, st.dist x ≠ none
  frontier : ∀ x ∈ st.visited, ∀ vw ∈ p.adj x, vw.1 ∉ st.visited →
    ∀ lstx cx, st.dist x = some (lstx, cx) →
    ∃ lst c, st.dist vw.1 = some (lst, c) ∧ c ≤ cx + vw.2

/-- Settled entries are optimal: no path beats a settled node's cost. -/
def OptInv (p : SearchProb) (s : ℕ) (st : SearchState) : Prop :=
  ∀ x ∈ st.visited, ∀ lst c, st.dist x = some (lst, c) →
    ∀ q d, RPath p.adj s x q d → c ≤ d

/-- The heuristic is consistent: it never drops by more than an edge's cost
across that edge (the spec's straight-line-distance heuristic satisfies this
because every traversal cost is at least the straight-line distance). -/
def Consistent (p : SearchProb) : Prop :=
  ∀ u vw, vw ∈ p.adj u → p.heur u ≤ vw.2 + p.heur vw.1

theorem basicInv_init (p : SearchProb) (s : ℕ) : BasicInv p s (initState s) := by
  refine ⟨?_, ?_, ?_, ?_⟩
  · show (if s = s then some ([s], (0 : ℚ)) else none) = some ([s], 0)
    rw [if_pos rfl]
  · intro v lst c h
    by_cases hv : v = s
    · subst hv
      have h' : (if v = v then some ([v], (0 : ℚ)) else none) = some (lst, c) := h
      rw [if_pos rfl] at h'
      obtain ⟨h1, h2⟩ := Prod.mk.inj (Option.some.inj h')
      rw [← h1, ← h2]
      exact RPath.nil
    · have h' : (if v = s then some ([s], (0 : ℚ)) else none) = some (lst, c) := h
      rw [if_neg hv] at h'
      cases h'
  · intro x hx
    cases hx
  · intro x hx
    cases hx

theorem dist_nonneg {p : SearchProb} {s : ℕ} {st : SearchState}
    (hn : ∀ u vw, vw ∈ p.adj u → 0 ≤ vw.2) (hinv : BasicInv p s st)
    {v : ℕ} {lst : List ℕ} {c : ℚ} (h : st.dist v = some (lst, c)) : 0 ≤ c :=
  (hinv.sound v lst c h).cost_nonneg hn

theorem relaxList_keep_small {pu : List ℕ} {du : ℚ} {l : List (ℕ × ℚ)}
    {st : SearchState} {x : ℕ} {pc : List ℕ × ℚ}
    (hw : ∀ vw ∈ l, 0 ≤ vw.2) (hx : st.dist x = some pc) (hle : pc.2 ≤ du) :
    (l.foldl (relaxOne pu du) st).dist x = some pc := by
  induction l generalizing st with
  | nil => exact hx
  | cons a t ih =>
    rw [List.foldl_cons]
    have hone : (relaxOne pu du st a).dist x = some pc := by
      rcases relaxOne_cases pu du st a x with h | ⟨-, -, -, hlt⟩
      · rw [h]
        exact hx
      · exfalso
        have h1 := hlt pc hx
        have h2 : 0 ≤ a.2 := hw a (List.mem_cons_self a t)
        linarith
    exact ih (fun vw hvw => hw vw (List.mem_cons_of_mem a hvw)) hone

theorem stepState_visited (p : SearchProb) (u : ℕ) (st : SearchState) :
    (stepState p u st).visited = u :: st.visited := by
  unfold stepState relax
  cases h : st.dist u with
  | none => rfl
  | some pc => rw [relaxList_visited]

theorem step_basic {p : SearchProb} {s : ℕ} {st : SearchState}
    (hn : ∀ u vw, vw ∈ p.adj u → 0 ≤ vw.2)
    (hinv : BasicInv p s st) {u : ℕ} (hpick : pickMin p st = some u) :
    BasicInv p s (stepState p u st) := by
  obtain ⟨humem, hunv, lstu, cu, hdu, -⟩ := pickMin_some hpick
  have hst1 : stepState p u st
      = (p.adj u).foldl (relaxOne lstu cu) { st with visited := u :: st.visited } := by
    unfold stepState
    exact @relax_eq_of_dist p u { st with visited := u :: st.visited } (lstu, cu) hdu
  set st1 : SearchState := { st with visited := u :: st.visited } with hst1def
  have hdist1 : ∀ x, st1.dist x = st.dist x := fun x => rfl
  have hcu : 0 ≤ cu := dist_nonneg hn hinv hdu
  have hadjw : ∀ vw ∈ p.adj u, 0 ≤ vw.2 := fun vw hvw => hn u vw hvw
  refine ⟨?_, ?_, ?_, ?_⟩
  · rw [hst1]
    exact relaxList_keep_small hadjw (hinv.src) hcu
  · intro v lst c h
    rw [hst1] at h
    rcases relaxList_new h with h1 | ⟨w, hw, hpc⟩
    · exact hinv.sound v lst c h1
    · obtain ⟨h1, h2⟩ := Prod.mk.inj hpc
      rw [h1, h2]
      have hpu : RPath p.adj s u lstu cu := hinv.sound u lstu cu hdu
      have hvw : (v, w) ∈ p.adj u := by
        have : (v, w) = (v, w) := rfl
        exact hw
      exact RPath.cons hpu hvw
  · intro x hx
    rw [hst1, relaxList_visited] at hx
    rcases List.mem_cons.mp hx with rfl | hx'
    · have hfrozen : (stepState p x st).dist x = st1.dist x := by
        rw [hst1]
        exact relaxList_frozen (List.mem_cons_self x st.visited)
      rw [hst1] at hfrozen ⊢
      rw [hfrozen, hdist1, hdu]
      exact fun hc => by cases hc
    · intro hnone
      rw [hst1] at hnone
      have hsome := hinv.vis_some x hx'
      cases hd : st.dist x with
      | none => exact hsome hd
      | some pc =>
        obtain ⟨pc', h1, -⟩ := @relaxList_mono lstu cu (p.adj u) st1 x pc
          (show st1.dist x = some pc from hd)
        rw [hnone] at h1
        cases h1
  · intro x hx vw hvwadj hnv lstx cx hdx
    rw [hst1, relaxList_visited] at hx
    rw [hst1] at hdx hnv ⊢
    rw [relaxList_visited] at hnv
    rcases List.mem_cons.mp hx with rfl | hx'
    · have hfrozen : ((p.adj x).foldl (relaxOne lstu cu) st1).dist x = st1.dist x :=
        relaxList_frozen (List.mem_cons_self x st.visited)
      rw [hfrozen, hdist1, hdu] at hdx
      obtain ⟨h1, h2⟩ := Prod.mk.inj (Option.some.inj hdx)
      obtain ⟨pc', hp1, hp2⟩ := @relaxList_establish lstu cu (p.adj x) st1 vw hvwadj hnv
      refine ⟨pc'.1, pc'.2, by rw [← hp1], ?_⟩
      rw [← h2]
      exact hp2
    · have hfrozen : ((p.adj u).foldl (relaxOne lstu cu) st1).dist x = st1.dist x :=
        relaxList_frozen (List.mem_cons_of_mem u hx')
      rw [hfrozen, hdist1] at hdx
      obtain ⟨lst0, c0, h1, h2⟩ := hinv.frontier x hx' vw hvwadj
        (fun hm => hnv (List.mem_cons_of_mem u hm)) lstx cx hdx
      obtain ⟨pc', hp1, hp2⟩ := @relaxList_mono lstu cu (p.adj u) st1 vw.1 (lst0, c0)
        (show st1.dist vw.1 = some (lst0, c0) from h1)
      exact ⟨pc'.1, pc'.2, by rw [← hp1], hp2.trans h2⟩

theorem extract_key_bound {p : SearchProb} {s : ℕ} {st : SearchState}
    (hclosed : ∀ u vw, vw ∈ p.adj u → vw.1 ∈ p.ids)
    (hcons : Consistent p) (hs : s ∈ p.ids)
    (hb : BasicInv p s st) (ho : OptInv p s st) {u : ℕ} {cu : ℚ}
    (hmin : ∀ v ∈ p.ids, v ∉ st.visited → ∀ lst' c', st.dist v = some (lst', c') →
      cu + p.heur u ≤ c' + p.heur v) :
    ∀ {v : ℕ} {q : List ℕ} {d : ℚ}, RPath p.adj s v q d → v ∉ st.visited →
      cu + p.heur u ≤ d + p.heur v := by
  intro v q d h
  induction h with
  | nil =>
    intro hns
    exact hmin s hs hns [s] 0 hb.src
  | @cons x v' w p' c hp hm ih =>
    intro hnv
    by_cases hx : x ∈ st.visited
    · cases hd : st.dist x with
      | none => exact absurd hd (hb.vis_some x hx)
      | some pcx =>
        have hcx : pcx.2 ≤ c :=
          ho x hx pcx.1 pcx.2 (by rw [hd]) p' c hp
        obtain ⟨lst, cv, hdv, hcv⟩ :=
          hb.frontier x hx (v', w) hm hnv pcx.1 pcx.2 (by rw [hd])
        have hvmem : v' ∈ p.ids := hclosed x (v', w) hm
        have h1 := hmin v' hvmem hnv lst cv hdv
        have h2 : cv + p.heur v' ≤ c + w + p.heur v' := by
          have : cv ≤ pcx.2 + w := hcv
          linarith
        calc cu + p.heur u ≤ cv + p.heur v' := h1
          _ ≤ c + w + p.heur v' := h2
          _ = (c + w) + p.heur v' := rfl
    · have h1 := ih hx
      have h2 : p.heur x ≤ w + p.heur v' := hcons x (v', w) hm
      calc cu + p.heur u ≤ c + p.heur x := h1
        _ ≤ c + (w + p.heur v') := by linarith
        _ = (c + w) + p.heur v' := by ring

theorem step_opt {p : SearchProb} {s : ℕ} {st : SearchState}
    (hclosed : ∀ u vw, vw ∈ p.adj u → vw.1 ∈ p.ids)
    (hcons : Consistent p) (hs : s ∈ p.ids)
    (hbi : BasicInv p s st) (ho : OptInv p s st) {u : ℕ}
    (hpick : pickMin p st = some u) : OptInv p s (stepState p u st) := by
  obtain ⟨humem, hunv, lstu, cu, hdu, hmin⟩ := pickMin_some hpick
  have hst1 : stepState p u st
      = (p.adj u).foldl (relaxOne lstu cu) { st with visited := u :: st.visited } := by
    unfold stepState
    exact @relax_eq_of_dist p u { st with visited := u :: st.visited } (lstu, cu) hdu
  intro x hx lst c hdx q d hq
  rw [hst1, relaxList_visited] at hx
  rw [hst1] at hdx
  rcases List.mem_cons.mp hx with rfl | hx'
  · have hfrozen : ((p.adj x).foldl (relaxOne lstu cu)
        { st with visited := x :: st.visited }).dist x
        = ({ st with visited := x :: st.visited } : SearchState).dist x :=
      relaxList_frozen (List.mem_cons_self x st.visited)
    rw [hfrozen] at hdx
    have hdx' : st.dist x = some (lst, c) := hdx
    rw [hdu] at hdx'
    obtain ⟨h1, h2⟩ := Prod.mk.inj (Option.some.inj hdx')
    have hkey := extract_key_bound hclosed hcons hs hbi ho hmin hq hunv
    rw [← h2]
    linarith
  · have hfrozen : ((p.adj u).foldl (relaxOne lstu cu)
        { st with visited := u :: st.visited }).dist x
        = ({ st with visited := u :: st.visited } : SearchState).dist x :=
      relaxList_frozen (List.mem_cons_of_mem u hx')
    rw [hfrozen] at hdx
    exact ho x hx' lst c hdx q d hq

theorem loop_basic {p : SearchProb} {s : ℕ}
    (hn : ∀ u vw, vw ∈ p.adj u → 0 ≤ vw.2) :
    ∀ (fuel : ℕ) (st : SearchState), BasicInv p s st →
      BasicInv p s (loopSearch p fuel st) := by
  intro fuel
  induction fuel with
  | zero => exact fun st hinv => hinv
  | succ fuel ih =>
    intro st hinv
    unfold loopSearch
    cases hpick : pickMin p st with
    | none => exact hinv
    | some u => exact ih (stepState p u st) (step_basic hn hinv hpick)

theorem loop_opt {p : SearchProb} {s : ℕ}
    (hn : ∀ u vw, vw ∈ p.adj u → 0 ≤ vw.2)
    (hclosed : ∀ u vw, vw ∈ p.adj u → vw.1 ∈ p.ids)
    (hcons : Consistent p) (hs : s ∈ p.ids) :
    ∀ (fuel : ℕ) (st : SearchState), BasicInv p s st → OptInv p s st →
      OptInv p s (loopSearch p fuel st) := by
  intro fuel
  induction fuel with
  | zero => exact fun st _ ho => ho
  | succ fuel ih =>
    intro st hinv ho
    unfold loopSearch
    cases hpick : pickMin p st with
    | none => exact ho
    | some u =>
      exact ih (stepState p u st) (step_basic hn hinv hpick)
        (step_opt hclosed hcons hs hinv ho hpick)

theorem mem_filter_ne_length_lt {l : List ℕ} {u : ℕ} (h : u ∈ l) :
    (l.filter (fun v => !(v == u))).length < l.length := by
  induction l with
  | nil => cases h
  | cons a t ih =>
    rw [List.filter_cons]
    by_cases hau : a = u
    · subst hau
      have hcond : (!(a == a)) = false := by simp
      rw [hcond]
      simp only [Bool.false_eq_true, if_false]
      exact lt_of_le_of_lt (List.length_filter_le _ t) (Nat.lt_succ_self _)
    · have hcond : (!(a == u)) = true := by simp [hau]
      rw [hcond]
      simp only [if_true, List.length_cons]
      have hut : u ∈ t := by
        rcases List.mem_cons.mp h with rfl | h'
        · exact absurd rfl hau
        · exact h'
      exact Nat.succ_lt_succ (ih hut)

theorem loop_exhaust {p : SearchProb} :
    ∀ (fuel : ℕ) (st : SearchState),
      (p.ids.filter (fun v => !st.visited.contains v)).length ≤ fuel →
      pickMin p (loopSearch p fuel st) = none := by
  intro fuel
  induction fuel with
  | zero =>
    intro st hlen
    have hnil : p.ids.filter (fun v => !st.visited.contains v) = [] :=
      List.eq_nil_of_length_eq_zero (Nat.le_zero.mp hlen)
    cases hpick : pickMin p st with
    | none => exact hpick
    | some u =>
      exfalso
      obtain ⟨humem, hunv, -⟩ := pickMin_some hpick
      have hcf : st.visited.contains u = false := by
        rw [Bool.eq_false_iff]
        exact fun hc => hunv (List.mem_of_elem_eq_true hc)
      have : u ∈ p.ids.filter (fun v => !st.visited.contains v) :=
        List.mem_filter.mpr ⟨humem, by rw [hcf]; rfl⟩
      rw [hnil] at this
      cases this
  | succ fuel ih =>
    intro st hlen
    unfold loopSearch
    cases hpick : pickMin p st with
    | none => exact hpick
    | some u =>
      obtain ⟨humem, hunv, -⟩ := pickMin_some hpick
      have hvis : (stepState p u st).visited = u :: st.visited :=
        stepState_visited p u st
      have hfilter : p.ids.filter (fun v => !(stepState p u st).visited.contains v)
          = (p.ids.filter (fun v => !st.visited.contains v)).filter
              (fun v => !(v == u)) := by
        rw [List.filter_filter]
        refine List.filter_congr (fun v _ => ?_)
        rw [hvis, List.contains_cons, Bool.not_or, Bool.and_comm]
      have hcf : st.visited.contains u = false := by
        rw [Bool.eq_false_iff]
        exact fun hc => hunv (List.mem_of_elem_eq_true hc)
      have humf : u ∈ p.ids.filter (fun v => !st.visited.contains v) :=
        List.mem_filter.mpr ⟨humem, by rw [hcf]; rfl⟩
      have hlen' : (p.ids.filter
          (fun v => !(stepState p u st).visited.contains v)).length ≤ fuel := by
        rw [hfilter]
        have hlt := mem_filter_ne_length_lt humf
        omega
      exact ih (stepState p u st) hlen'

theorem RPath_mem {p : SearchProb} {s : ℕ}
    (hclosed : ∀ u vw, vw ∈ p.adj u → vw.1 ∈ p.ids) (hs : s ∈ p.ids)
    {v : ℕ} {lst : List ℕ} {c : ℚ} (h : RPath p.adj s v lst c) : v ∈ p.ids := by
  induction h with
  | nil => exact hs
  | @cons x v' w p' c hp hm ih => exact hclosed x (v', w) hm

theorem runSearch_exhausted (p : SearchProb) (s : ℕ) :
    pickMin p (runSearch p s) = none :=
  loop_exhaust p.ids.length (initState s) (List.length_filter_le _ _)

theorem runSearch_basic {p : SearchProb} {s : ℕ}
    (hn : ∀ u vw, vw ∈ p.adj u → 0 ≤ vw.2) : BasicInv p s (runSearch p s) :=
  loop_basic hn p.ids.length (initState s) (basicInv_init p s)

theorem runSearch_opt {p : SearchProb} {s : ℕ}
    (hn : ∀ u vw, vw ∈ p.adj u → 0 ≤ vw.2)
    (hclosed : ∀ u vw, vw ∈ p.adj u → vw.1 ∈ p.ids)
    (hcons : Consistent p) (hs : s ∈ p.ids) : OptInv p s (runSearch p s) :=
  loop_opt hn hclosed hcons hs p.ids.length (initState s) (basicInv_init p s)
    (fun x hx => by cases hx)

theorem runSearch_complete {p : SearchProb} {s : ℕ}
    (hn : ∀ u vw, vw ∈ p.adj u → 0 ≤ vw.2)
    (hclosed : ∀ u vw, vw ∈ p.adj u → vw.1 ∈ p.ids) (hs : s ∈ p.ids)
    {v : ℕ} {q : List ℕ} {d : ℚ} (h : RPath p.adj s v q d) :
    (runSearch p s).dist v ≠ none := by
  have hb : BasicInv p s (runSearch p s) := runSearch_basic hn
  have hi : ∀ x ∈ p.ids, x ∉ (runSearch p s).visited → (runSearch p s).dist x = none :=
    pickMin_none (runSearch_exhausted p s)
  induction h with
  | nil =>
    rw [hb.src]
    exact fun hc => by cases hc
  | @cons x v' w p' c hp hm ih =>
    have hdx : (runSearch p s).dist x ≠ none := ih
    have hxmem : x ∈ p.ids := RPath_mem hclosed hs hp
    have hxvis : x ∈ (runSearch p s).visited := by
      by_contra hnx
      exact hdx (hi x hxmem hnx)
    by_cases hv : v' ∈ (runSearch p s).visited
    · exact hb.vis_some v' hv
    · cases hd : (runSearch p s).dist x with
      | none => exact absurd hd hdx
      | some pcx =>
        obtain ⟨lst, cv, h1, -⟩ :=
          hb.frontier x hxvis (v', w) hm hv pcx.1 pcx.2 (by rw [hd])
        rw [h1]
        exact fun hc => by cases hc

theorem runSearch_dist_opt {p : SearchProb} {s t : ℕ}
    (hn : ∀ u vw, vw ∈ p.adj u → 0 ≤ vw.2)
    (hclosed : ∀ u vw, vw ∈ p.adj u → vw.1 ∈ p.ids)
    (hcons : Consistent p) (hs : s ∈ p.ids) (ht : t ∈ p.ids)
    {lst : List ℕ} {c : ℚ} (hd : (runSearch p s).dist t = some (lst, c)) :
    RPath p.adj s t lst c ∧ ∀ q d, RPath p.adj s t q d → c ≤ d := by
  have hb : BasicInv p s (runSearch p s) := runSearch_basic hn
  have htvis : t ∈ (runSearch p s).visited := by
    by_contra hnt
    rw [pickMin_none (runSearch_exhausted p s) t ht hnt] at hd
    cases hd
  exact ⟨hb.sound t lst c hd,
    fun q d hq => runSearch_opt hn hclosed hcons hs t htvis lst c hd q d hq⟩

/-- Wellformed routing graph: nonnegative base distances, edge endpoints that
exist among the nodes, loads in `[0, 1]`, and pairwise distinct node ids. -/
def WFGraph (g : RGraph) : Prop :=
  (∀ e ∈ g.edges, 0 ≤ e.dist ∧ e.ea ∈ g.nodes.map RNode.nid ∧
    e.eb ∈ g.nodes.map RNode.nid) ∧
  (∀ n ∈ g.nodes, 0 ≤ n.load ∧ n.load ≤ 1) ∧
  (g.nodes.map RNode.nid).Nodup

theorem mem_adjacency {g : RGraph} {accReq : Bool} {u : ℕ} {vw : ℕ × ℚ} :
    vw ∈ adjacency g accReq u ↔ ∃ e ∈ g.edges, edgeOk g accReq e = true ∧
      ((e.ea = u ∧ vw = (e.eb, edgeCost g e)) ∨
        (¬ e.ea = u ∧ e.eb = u ∧ vw = (e.ea, edgeCost g e))) := by
  unfold adjacency
  induction g.edges with
  | nil =>
    simp only [List.foldr_nil, List.not_mem_nil, false_iff]
    rintro ⟨e, he, -⟩
    exact he
  | cons e t ih =>
    rw [List.foldr_cons]
    constructor
    · intro hm
      by_cases hok : edgeOk g accReq e
      · rw [if_pos hok] at hm
        by_cases hea : e.ea = u
        · rw [if_pos hea] at hm
          rcases List.mem_cons.mp hm with rfl | hm'
          · exact ⟨e, List.mem_cons_self e t, hok, Or.inl ⟨hea, rfl⟩⟩
          · obtain ⟨e', he', h1, h2⟩ := ih.mp hm'
            exact ⟨e', List.mem_cons_of_mem e he', h1, h2⟩
        · rw [if_neg hea] at hm
          by_cases heb : e.eb = u
          · rw [if_pos heb] at hm
            rcases List.mem_cons.mp hm with rfl | hm'
            · exact ⟨e, List.mem_cons_self e t, hok, Or.inr ⟨hea, heb, rfl⟩⟩
            · obtain ⟨e', he', h1, h2⟩ := ih.mp hm'
              exact ⟨e', List.mem_cons_of_mem e he', h1, h2⟩
          · rw [if_neg heb] at hm
            obtain ⟨e', he', h1, h2⟩ := ih.mp hm
            exact ⟨e', List.mem_cons_of_mem e he', h1, h2⟩
      · rw [if_neg hok] at hm
        obtain ⟨e', he', h1, h2⟩ := ih.mp hm
        exact ⟨e', List.mem_cons_of_mem e he', h1, h2⟩
    · rintro ⟨e', he', hok', hcase⟩
      rcases List.mem_cons.mp he' with rfl | he''
      · rw [if_pos hok']
        rcases hcase with ⟨hea, rfl⟩ | ⟨hea, heb, rfl⟩
        · rw [if_pos hea]
          exact List.mem_cons_self _ _
        · rw [if_neg hea, if_pos heb]
          exact List.mem_cons_self _ _
      · have hmem : vw ∈ t.foldr (fun e acc =>
            if edgeOk g accReq e then
              if e.ea = u then (e.eb, edgeCost g e) :: acc
              else if e.eb = u then (e.ea, edgeCost g e) :: acc
              else acc
            else acc) [] := ih.mpr ⟨e', he'', hok', hcase⟩
        by_cases hok : edgeOk g accReq e
        · rw [if_pos hok]
          by_cases hea : e.ea = u
          · rw [if_pos hea]
            exact List.mem_cons_of_mem _ hmem
          · rw [if_neg hea]
            by_cases heb : e.eb = u
            · rw [if_pos heb]
              exact List.mem_cons_of_mem _ hmem
            · rw [if_neg heb]
              exact hmem
        · rw [if_neg hok]
          exact hmem

theorem nodeLoad_nonneg {g : RGraph} (hWF : WFGraph g) (i : ℕ) :
    0 ≤ nodeLoad g i := by
  unfold nodeLoad getNode
  cases hf : g.nodes.find? (fun n => n.nid == i) with
  | none => exact le_refl 0
  | some n => exact (hWF.2.1 n (List.mem_of_find?_eq_some hf)).1

theorem edgeCost_nonneg {g : RGraph} (hWF : WFGraph g) {e : REdge}
    (he : e ∈ g.edges) : 0 ≤ edgeCost g e := by
  unfold edgeCost
  have h1 := (hWF.1 e he).1
  have h2 := nodeLoad_nonneg hWF e.ea
  have h3 := nodeLoad_nonneg hWF e.eb
  have h4 : (0 : ℚ) ≤ 1 + nodeLoad g e.ea + nodeLoad g e.eb := by linarith
  exact mul_nonneg h1 h4

theorem adjacency_nonneg {g : RGraph} {accReq : Bool} (hWF : WFGraph g) :
    ∀ u vw, vw ∈ adjacency g accReq u → 0 ≤ vw.2 := by
  intro u vw hm
  obtain ⟨e, he, -, hcase⟩ := mem_adjacency.mp hm
  rcases hcase with ⟨-, rfl⟩ | ⟨-, -, rfl⟩ <;> exact edgeCost_nonneg hWF he

theorem nodeAcc_true {g : RGraph} {i : ℕ} (h : nodeAcc g i = true) :
    ∃ n ∈ g.nodes, n.nid = i ∧ n.accessible = true := by
  unfold nodeAcc getNode at h
  cases hf : g.nodes.find? (fun n => n.nid == i) with
  | none => rw [hf] at h; cases h
  | some n =>
    rw [hf] at h
    refine ⟨n, List.mem_of_find?_eq_some hf, ?_, h⟩
    have := List.find?_some hf
    simpa using this

theorem mem_searchIds_of_acc {g : RGraph} {i : ℕ} (h : nodeAcc g i = true) :
    i ∈ searchIds g true := by
  obtain ⟨n, hn, hnid, hacc⟩ := nodeAcc_true h
  unfold searchIds searchNodes
  rw [if_pos rfl]
  exact List.mem_map.mpr ⟨n, List.mem_filter.mpr ⟨hn, hacc⟩, hnid⟩

theorem adjacency_closed {g : RGraph} {accReq : Bool} (hWF : WFGraph g) :
    ∀ u vw, vw ∈ adjacency g accReq u → vw.1 ∈ searchIds g accReq := by
  intro u vw hm
  obtain ⟨e, he, hok, hcase⟩ := mem_adjacency.mp hm
  cases accReq with
  | false =>
    have hids : searchIds g false = g.nodes.map RNode.nid := by
      unfold searchIds searchNodes
      rfl
    rw [hids]
    rcases hcase with ⟨-, rfl⟩ | ⟨-, -, rfl⟩
    · exact (hWF.1 e he).2.2
    · exact (hWF.1 e he).2.1
  | true =>
    have hok' : nodeAcc g e.ea = true ∧ nodeAcc g e.eb = true := by
      unfold edgeOk at hok
      simp only [Bool.not_true, Bool.false_or] at hok
      exact Bool.and_eq_true_iff.mp hok
    rcases hcase with ⟨-, rfl⟩ | ⟨-, -, rfl⟩
    · exact mem_searchIds_of_acc hok'.2
    · exact mem_searchIds_of_acc hok'.1

theorem searchIds_nodup {g : RGraph} (hWF : WFGraph g) (accReq : Bool) :
    (searchIds g accReq).Nodup := by
  cases accReq with
  | false => exact hWF.2.2
  | true =>
    unfold searchIds searchNodes
    rw [if_pos rfl]
    exact hWF.2.2.sublist ((g.nodes.filter_sublist).map RNode.nid)

theorem snapFold_mem {c : ℚ × ℚ} :
    ∀ (l : List RNode) (acc : Option (ℕ × ℚ)) (bd : ℕ × ℚ),
      (l.foldl (fun best n =>
        match best with
        | none => some (n.nid, (n.x - c.1) * (n.x - c.1) + (n.y - c.2) * (n.y - c.2))
        | some bd =>
          if (n.x - c.1) * (n.x - c.1) + (n.y - c.2) * (n.y - c.2) < bd.2 then
            some (n.nid, (n.x - c.1) * (n.x - c.1) + (n.y - c.2) * (n.y - c.2))
          else best) acc) = some bd →
      acc = some bd ∨ bd.1 ∈ l.map RNode.nid := by
  intro l
  induction l with
  | nil => exact fun acc bd h => Or.inl h
  | cons n t ih =>
    intro acc bd h
    rw [List.foldl_cons] at h
    rcases ih _ bd h with h1 | h1
    · cases acc with
      | none =>
        obtain ⟨h2, -⟩ := Prod.mk.inj (Option.some.inj h1)
        exact Or.inr (by rw [← h2]; exact List.mem_cons_self _ _)
      | some bd0 =>
        replace h1 : (if (n.x - c.1) * (n.x - c.1) + (n.y - c.2) * (n.y - c.2) < bd0.2
            then some (n.nid, (n.x - c.1) * (n.x - c.1) + (n.y - c.2) * (n.y - c.2))
            else some bd0) = some bd := h1
        by_cases hlt : (n.x - c.1) * (n.x - c.1) + (n.y - c.2) * (n.y - c.2) < bd0.2
        · rw [if_pos hlt] at h1
          obtain ⟨h2, -⟩ := Prod.mk.inj (Option.some.inj h1)
          exact Or.inr (by rw [← h2]; exact List.mem_cons_self _ _)
        · rw [if_neg hlt] at h1
          exact Or.inl h1
    · exact Or.inr (List.mem_cons_of_mem _ h1)

theorem snapNode_mem {g : RGraph} {accReq : Bool} {c : ℚ × ℚ} {s : ℕ}
    (h : snapNode g accReq c = some s) : s ∈ searchIds g accReq := by
  unfold snapNode snapFold at h
  cases hf : (searchNodes g accReq).foldl (fun best n =>
      match best with
      | none => some (n.nid, (n.x - c.1) * (n.x - c.1) + (n.y - c.2) * (n.y - c.2))
      | some bd =>
        if (n.x - c.1) * (n.x - c.1) + (n.y - c.2) * (n.y - c.2) < bd.2 then
          some (n.nid, (n.x - c.1) * (n.x - c.1) + (n.y - c.2) * (n.y - c.2))
        else best) none with
  | none => rw [hf] at h; cases h
  | some bd =>
    rw [hf] at h
    obtain rfl : bd.1 = s := Option.some.inj h
    rcases snapFold_mem (searchNodes g accReq) none bd hf with h1 | h1
    · cases h1
    · exact h1

theorem find_path_eq {g : RGraph} {sc ec : ℚ × ℚ} {accReq : Bool} {alg : Algo}
    {heur : ℕ → ℚ} {s t : ℕ}
    (hs : snapNode g accReq sc = some s) (ht : snapNode g accReq ec = some t) :
    find_path g sc ec accReq alg heur
      = match searchResult (routeProb g accReq alg heur) s t with
        | some pc => Except.ok pc
        | none => Except.error RouteError.NoPathError := by
  unfold find_path
  rw [hs, ht]

theorem searchResult_eq_some {p : SearchProb} {s t : ℕ} {pc : List ℕ × ℚ}
    (hd : (runSearch p s).dist t = some pc) :
    searchResult p s t = some (pc.1.reverse, pc.2) := by
  unfold searchResult
  rw [hd]
  rfl

theorem searchResult_eq_none {p : SearchProb} {s t : ℕ}
    (hd : (runSearch p s).dist t = none) : searchResult p s t = none := by
  unfold searchResult
  rw [hd]
  rfl

/-- Claim C3: for every wellformed routing graph, snapped endpoints in the same
connected component of the accessibility-filtered graph, and a consistent A*
heuristic (the spec's straight-line distance is consistent since every edge
cost is at least the straight-line distance), `find_path` with `astar` and
with `dijkstra` return paths of identical total cost. -/
theorem C3_astar_dijkstra_same_cost
    (g : RGraph) (sc ec : ℚ × ℚ) (accReq : Bool) (heur : ℕ → ℚ) (s t : ℕ)
    (hWF : WFGraph g)
    (hcons : ∀ u vw, vw ∈ adjacency g accReq u → heur u ≤ vw.2 + heur vw.1)
    (hs : snapNode g accReq sc = some s) (ht : snapNode g accReq ec = some t)
    (hreach : Reachable (adjacency g accReq) s t) :
    ∃ p1 p2 c, find_path g sc ec accReq .astar heur = .ok (p1, c) ∧
      find_path g sc ec accReq .dijkstra heur = .ok (p2, c) := by
  obtain ⟨q, d, hq⟩ := hreach
  have hsmem : s ∈ searchIds g accReq := snapNode_mem hs
  have htmem : t ∈ searchIds g accReq := snapNode_mem ht
  have hn : ∀ u vw, vw ∈ adjacency g accReq u → 0 ≤ vw.2 := adjacency_nonneg hWF
  have hcl : ∀ u vw, vw ∈ adjacency g accReq u → vw.1 ∈ searchIds g accReq :=
    adjacency_closed hWF
  have hconsA : Consistent (routeProb g accReq .astar heur) :=
    fun u vw h => hcons u vw h
  have hconsD : Consistent (routeProb g accReq .dijkstra heur) := by
    intro u vw h
    show (0 : ℚ) ≤ vw.2 + 0
    have := hn u vw h
    linarith
  have hneA : (runSearch (routeProb g accReq .astar heur) s).dist t ≠ none :=
    runSearch_complete hn hcl hsmem hq
  have hneD : (runSearch (routeProb g accReq .dijkstra heur) s).dist t ≠ none :=
    runSearch_complete hn hcl hsmem hq
  cases hdA : (runSearch (routeProb g accReq .astar heur) s).dist t with
  | none => exact absurd hdA hneA
  | some pcA =>
    cases hdD : (runSearch (routeProb g accReq .dijkstra heur) s).dist t with
    | none => exact absurd hdD hneD
    | some pcD =>
      obtain ⟨hsoundA, hoptA⟩ := @runSearch_dist_opt _ _ _ hn hcl hconsA hsmem htmem
        pcA.1 pcA.2 (by rw [hdA])
      obtain ⟨hsoundD, hoptD⟩ := @runSearch_dist_opt _ _ _ hn hcl hconsD hsmem htmem
        pcD.1 pcD.2 (by rw [hdD])
      have hceq : pcA.2 = pcD.2 :=
        le_antisymm (hoptA pcD.1 pcD.2 hsoundD) (hoptD pcA.1 pcA.2 hsoundA)
      refine ⟨pcA.1.reverse, pcD.1.reverse, pcA.2, ?_, ?_⟩
      · rw [find_path_eq hs ht, searchResult_eq_some hdA]
      · rw [find_path_eq hs ht, searchResult_eq_some hdD, hceq]

/-- The concrete 4-node line graph of the spec's scenario: nodes 0–3 on a
line, base distance 1 between consecutive nodes, zero loads (so each edge cost
is 1), with node 1 inaccessible — making the middle edge (and the edge 0–1)
inaccessible. -/
def lineGraph : RGraph :=
  { nodes := [⟨0, 0, 0, 10, 0, true⟩, ⟨1, 1, 0, 10, 0, false⟩,
              ⟨2, 2, 0, 10, 0, true⟩, ⟨3, 3, 0, 10, 0, true⟩],
    edges := [⟨0, 1, 1⟩, ⟨1, 2, 1⟩, ⟨2, 3, 1⟩] }

theorem lineGraph_wf : WFGraph lineGraph := by
  norm_num [WFGraph, lineGraph]

theorem lineGraph_snap0 : snapNode lineGraph true (0, 0) = some 0 := by
  norm_num [snapNode, snapFold, searchNodes, lineGraph, List.foldl, List.filter]

theorem lineGraph_snap3 : snapNode lineGraph true (3, 0) = some 3 := by
  norm_num [snapNode, snapFold, searchNodes, lineGraph, List.foldl, List.filter]

theorem lineGraph_adj0 : adjacency lineGraph true 0 = [] := by
  simp +decide [adjacency, lineGraph, edgeOk, nodeAcc, getNode, List.find?]

theorem lineGraph_unreachable : ¬ Reachable (adjacency lineGraph true) 0 3 := by
  rintro ⟨q, d, hq⟩
  have hzero : ∀ v lst c, RPath (adjacency lineGraph true) 0 v lst c → v = 0 := by
    intro v lst c h
    induction h with
    | nil => rfl
    | @cons x v' w p' c hp hm ih =>
      rw [ih, lineGraph_adj0] at hm
      cases hm
  exact absurd (hzero 3 q d hq) (by decide)

theorem find_path_nopath_iff (g : RGraph) (sc ec : ℚ × ℚ) (accReq : Bool)
    (alg : Algo) (heur : ℕ → ℚ) (s t : ℕ) (hWF : WFGraph g)
    (hs : snapNode g accReq sc = some s) (ht : snapNode g accReq ec = some t) :
    find_path g sc ec accReq alg heur = .error .NoPathError ↔
      ¬ Reachable (adjacency g accReq) s t := by
  have hn : ∀ u vw, vw ∈ adjacency g accReq u → 0 ≤ vw.2 := adjacency_nonneg hWF
  have hcl : ∀ u vw, vw ∈ adjacency g accReq u → vw.1 ∈ searchIds g accReq :=
    adjacency_closed hWF
  have hsmem : s ∈ searchIds g accReq := snapNode_mem hs
  constructor
  · intro herr hreach
    obtain ⟨q, d, hq⟩ := hreach
    have hne : (runSearch (routeProb g accReq alg heur) s).dist t ≠ none :=
      runSearch_complete hn hcl hsmem hq
    cases hd : (runSearch (routeProb g accReq alg heur) s).dist t with
    | none => exact hne hd
    | some pc =>
      rw [find_path_eq hs ht, searchResult_eq_some hd] at herr
      replace herr : Except.ok (pc.1.reverse, pc.2)
          = Except.error RouteError.NoPathError := herr
      cases herr
  · intro hnreach
    cases hd : (runSearch (routeProb g accReq alg heur) s).dist t with
    | some pc =>
      exfalso
      have hb : BasicInv (routeProb g accReq alg heur) s
          (runSearch (routeProb g accReq alg heur) s) := runSearch_basic hn
      exact hnreach ⟨pc.1, pc.2, hb.sound t pc.1 pc.2 (by rw [hd])⟩
    | none =>
      rw [find_path_eq hs ht, searchResult_eq_none hd]

/-- Claim C6: `find_path` fails with `NoPathError` exactly when, after
accessibility filtering, the snapped start and end nodes lie in different
connected components; and on the concrete 4-node line graph with the middle
edge inaccessible, `find_path` from node 0 to node 3 with
`accessibility_required = true` fails with `NoPathError`. -/
theorem C6_nopath_iff_disconnected :
    (∀ (g : RGraph) (sc ec : ℚ × ℚ) (accReq : Bool) (alg : Algo) (heur : ℕ → ℚ)
      (s t : ℕ), WFGraph g →
      snapNode g accReq sc = some s → snapNode g accReq ec = some t →
      (find_path g sc ec accReq alg heur = .error .NoPathError ↔
        ¬ Reachable (adjacency g accReq) s t)) ∧
    find_path lineGraph (0, 0) (3, 0) true .dijkstra (fun v => 0)
      = .error .NoPathError :=
  ⟨fun g sc ec accReq alg heur s t hWF hs ht =>
    find_path_nopath_iff g sc ec accReq alg heur s t hWF hs ht,
   (find_path_nopath_iff lineGraph (0, 0) (3, 0) true .dijkstra (fun v => 0) 0 3
     lineGraph_wf lineGraph_snap0 lineGraph_snap3).mpr lineGraph_unreachable⟩

/-- Claim C6, witness: the disconnection criterion applied to the line-graph
scenario — the snapped endpoints 0 and 3 are not connected after filtering. -/
theorem C6_nopath_iff_disconnected_witness :
    WFGraph lineGraph ∧ ¬ Reachable (adjacency lineGraph true) 0 3 :=
  ⟨lineGraph_wf,
   (C6_nopath_iff_disconnected.1 lineGraph (0, 0) (3, 0) true .dijkstra
     (fun v => 0) 0 3 lineGraph_wf lineGraph_snap0 lineGraph_snap3).mp
     C6_nopath_iff_disconnected.2⟩

/-- A wellformed two-node graph with one edge, for the C3 witness. -/
def pairGraph : RGraph :=
  { nodes := [⟨0, 0, 0, 10, 0, true⟩, ⟨1, 1, 0, 10, 0, true⟩],
    edges := [⟨0, 1, 1⟩] }

theorem pairGraph_wf : WFGraph pairGraph := by
  norm_num [WFGraph, pairGraph]

theorem pairGraph_snap0 : snapNode pairGraph false (0, 0) = some 0 := by
  norm_num [snapNode, snapFold, searchNodes, pairGraph, List.foldl, List.filter]

theorem pairGraph_snap1 : snapNode pairGraph false (1, 0) = some 1 := by
  norm_num [snapNode, snapFold, searchNodes, pairGraph, List.foldl, List.filter]

theorem pairGraph_reach : Reachable (adjacency pairGraph false) 0 1 :=
  ⟨[1, 0], 0 + edgeCost pairGraph ⟨0, 1, 1⟩,
   RPath.cons RPath.nil
     (mem_adjacency.mpr
       ⟨⟨0, 1, 1⟩, List.mem_cons_self _ _, rfl, Or.inl ⟨rfl, rfl⟩⟩)⟩

/-- Claim C3, witness: on the two-node graph with the zero heuristic (trivially
consistent), A* and Dijkstra return paths of identical total cost. -/
theorem C3_astar_dijkstra_same_cost_witness :
    ∃ p1 p2 c,
      find_path pairGraph (0, 0) (1, 0) false .astar (fun v => 0) = .ok (p1, c) ∧
      find_path pairGraph (0, 0) (1, 0) false .dijkstra (fun v => 0) = .ok (p2, c) :=
  C3_astar_dijkstra_same_cost pairGraph (0, 0) (1, 0) false (fun v => 0) 0 1
    pairGraph_wf
    (fun u vw h => by
      show (0 : ℚ) ≤ vw.2 + 0
      have := adjacency_nonneg pairGraph_wf u vw h
      linarith)
    pairGraph_snap0 pairGraph_snap1 pairGraph_reach

end Creative
